import Mathlib

/-!
Verification development for the MarkEdit book build pipeline.

The JavaScript sources modelled here are:
  * `build-epub.js`  — EPUB build script (asset staging, SVG sanitizing,
    chapter staging with path rewriting, pandoc invocation, cleanup),
  * `src/build-pdf.js` — PDF build script (asset staging, chapter staging
    with path rewriting, pandoc then wkhtmltopdf invocation, cleanup),
  * `static/common/js/common.js` — `reorderChapters`, the chapter
    resequencer used for the chapters directory listing.

Strings are modelled as `List Char`.  JavaScript's `String.prototype.replace`
with a global literal-only regular expression is leftmost, non-overlapping
replacement; it is modelled by `replaceAll` below, built on a generic
scanner combinator `genScan`.
-/

namespace MarkEdit


/-- Number of positions of `s` at which the nonempty pattern `p` occurs
(all positions counted, overlapping occurrences included). -/
def countOcc (p : List Char) : List Char → Nat
  | [] => 0
  | c :: r => (if List.isPrefixOf p (c :: r) then 1 else 0) + countOcc p r

/-- `hasMatch p s` is true iff `p` occurs as a contiguous substring of `s`
(for nonempty `p`; an empty `p` matches everywhere). -/
def hasMatch (p : List Char) : List Char → Bool
  | [] => p.isEmpty
  | c :: r => List.isPrefixOf p (c :: r) || hasMatch p r

/-!
A generic left-to-right scanner modelling JavaScript's global regular
expression replacement: at each position, try to match at the current
position; on a match, emit the replacement and resume after the matched
text; otherwise emit the current character and advance by one.
-/

/-- A scanner: a head matcher returning the emitted replacement text and the
remainder after the match.  All scanners used below consume at least one
character on a match (stated and proved separately per scanner). -/
structure Scanner where
  parse : List Char → Option (List Char × List Char)

/-- Fueled scanner run (structural recursion so the kernel can evaluate it). -/
def genScanF (P : Scanner) : Nat → List Char → List Char
  | 0, _ => []
  | _ + 1, [] => []
  | fuel + 1, c :: r =>
    match P.parse (c :: r) with
    | some (e, rem) => e ++ genScanF P fuel rem
    | none => c :: genScanF P fuel r

/-- Run a scanner over a whole input. -/
def genScan (P : Scanner) (s : List Char) : List Char := genScanF P (s.length + 1) s

/-!
The path rewriter.  `build-epub.js` line 117 and `build-pdf.js` line 69
rewrite every occurrence of the literal pattern `../illustrations/` (the
regular expression contains no metacharacters beyond escapes) into
`illustrations/` respectively `./illustrations/`.  JavaScript `replace`
with a `g`-flagged literal pattern is leftmost non-overlapping global
replacement, i.e. `replaceAll` below.
-/

/-- Head matcher for literal global replacement of `p` by `r`. -/
def litScanner (p r : List Char) : Scanner where
  parse s := if p ≠ [] ∧ List.isPrefixOf p s = true then some (r, s.drop p.length) else none

/-- Leftmost, non-overlapping, global replacement of `p` by `r` —
the model of JavaScript `String.prototype.replace` with a global literal
pattern. -/
def replaceAll (p r s : List Char) : List Char := genScan (litScanner p r) s

/-- The fixed upward asset-reference pattern `../illustrations/`. -/
def upat : List Char := ['.', '.', '/', 'i', 'l', 'l', 'u', 's', 't', 'r', 'a', 't', 'i', 'o', 'n', 's', '/']

/-- The EPUB replacement `illustrations/` (sibling-directory form). -/
def epubRep : List Char := ['i', 'l', 'l', 'u', 's', 't', 'r', 'a', 't', 'i', 'o', 'n', 's', '/']

/-- The PDF replacement `./illustrations/` (dotted-relative form). -/
def pdfRep : List Char := ['.', '/', 'i', 'l', 'l', 'u', 's', 't', 'r', 'a', 't', 'i', 'o', 'n', 's', '/']

/-!
Segment decomposition of a leftmost global replacement: the input splits
into match-free segments separated by pattern occurrences, and the output
is the same segments separated by the replacement.
-/

/-- Tail part of `joinWith`: each further segment is preceded by the
separator. -/
def joinTail (sep : List Char) : List (List Char) → List Char
  | [] => []
  | g :: rest => sep ++ (g ++ joinTail sep rest)

/-- Join a nonempty segment list with a separator. -/
def joinWith (sep : List Char) : List (List Char) → List Char
  | [] => []
  | g :: rest => g ++ joinTail sep rest

/-- `../../illustrations/`: the context in which an EPUB rewrite leaves a
new occurrence of the pattern behind. -/
def epubBad : List Char := ['.', '.', '/'] ++ upat

/-- `.../illustrations/`: the context in which a PDF rewrite leaves a new
occurrence of the pattern behind. -/
def pdfBad : List Char := ['.'] ++ upat

/-- Sum of occurrence counts of `p` over a segment list. -/
def sumCnt (p : List Char) (segs : List (List Char)) : Nat :=
  (segs.map (countOcc p)).sum

/-!
The SVG sanitizer: `optimizeSvgForEpub` from `build-epub.js` lines 37–75.
Transformations in source order:
 1. if the content does not include `xmlns="http://www.w3.org/2000/svg"`,
    replace the first occurrence of `<svg` by
    `<svg xmlns="http://www.w3.org/2000/svg"`;
 2. `content.replace(/<\?xml.*?\?>/g, '')` — strip XML prologs
    (`.` does not match line terminators, `.*?` is lazy);
 3. if the content matches neither `/width="\d+"/` nor misses, i.e. if it
    lacks `width="\d+"` or lacks `height="\d+"`, apply
    `replace(/<svg([^>]*?)(?<!width="[^"]*")>/, '<svg$1 width="400" height="300">')`
    — first match only, with a variable-length negative lookbehind;
 4. if the content includes the substring `opacity`, apply
    `replace(/\s+opacity\s*=\s*"[^"]*"/g, '')` and then
    `replace(/opacity\s*=\s*"[^"]*"/g, '')`;
 5. `replace(/<style[^>]*>[\s\S]*?<\/style>/g, m => m.replace(/opacity\s*:\s*[^;]+;?/g, ''))`.
-/

/-- JavaScript `\s` (the whitespace characters relevant to this code base:
ASCII whitespace and no-break space; the remaining Unicode space
characters never appear in the sources modelled here). -/
def isJsWs (c : Char) : Bool :=
  c == ' ' || c == '\t' || c == '\n' || c == '\r' || c == '\x0b' || c == '\x0c' || c == '\u00A0'

/-- Replace the first occurrence of `p` by `r` — the model of JavaScript
`String.prototype.replace` with a plain-string pattern. -/
def replaceFirst (p r : List Char) : List Char → List Char
  | [] => []
  | c :: s =>
    if List.isPrefixOf p (c :: s) then r ++ (c :: s).drop p.length
    else c :: replaceFirst p r s

/-- The literal `<svg`. -/
def svgTag : List Char := ['<', 's', 'v', 'g']

/-- The namespace declaration looked for by the `includes` test. -/
def xmlnsNeedle : List Char := "xmlns=\"http://www.w3.org/2000/svg\"".data

/-- The replacement text injecting the namespace declaration. -/
def svgTagXmlns : List Char := "<svg xmlns=\"http://www.w3.org/2000/svg\"".data

/-- Step 1: inject the namespace declaration into the first `<svg` when the
content does not include it already. -/
def nsStep (s : List Char) : List Char :=
  if hasMatch xmlnsNeedle s then s else replaceFirst svgTag svgTagXmlns s

/-- The literal `<?xml`. -/
def xmlOpen : List Char := ['<', '?', 'x', 'm', 'l']

/-- Lazy search for the closing `?>` of an XML prolog: consume characters
(`.` matches neither `\n` nor `\r`) until the first `?>`; fail on a line
terminator or the end of input. -/
def xmlClose : List Char → Option (List Char)
  | '?' :: '>' :: r => some r
  | c :: r => if c == '\n' || c == '\r' then none else xmlClose r
  | [] => none

/-- Head matcher of `/<\?xml.*?\?>/g` (replacement is empty). -/
def xmlScanner : Scanner where
  parse s :=
    if List.isPrefixOf xmlOpen s then (xmlClose (s.drop 5)).map (fun rest => ([], rest))
    else none

/-- Step 2: strip XML prologs globally. -/
def stripXmlDecls (s : List Char) : List Char := genScan xmlScanner s

/-- The literal `width="`. -/
def widthKey : List Char := ['w', 'i', 'd', 't', 'h', '=', '"']

/-- The literal `height="`. -/
def heightKey : List Char := ['h', 'e', 'i', 'g', 'h', 't', '=', '"']

/-- Front match of `key` followed by one or more digits and `"` —
the body of the `/width="\d+"/` test at one position. -/
def dimAt (key : List Char) (s : List Char) : Bool :=
  if List.isPrefixOf key s then
    let t := s.drop key.length
    let ds := t.takeWhile Char.isDigit
    !ds.isEmpty && ((t.drop ds.length).take 1 == ['"'])
  else false

/-- Whether `s` matches `key` + digits + `"` somewhere — the model of
`content.match(/width="\d+"/)` (and the height analogue). -/
def hasDimDigits (key : List Char) : List Char → Bool
  | [] => false
  | c :: r => dimAt key (c :: r) || hasDimDigits key r

/-- The reverse of the literal `width="`. -/
def widthLB : List Char := ['"', '=', 'h', 't', 'd', 'i', 'w']

/-- The negative lookbehind `(?<!width="[^"]*")` fails (blocks the match)
iff the text before the position, here given reversed, ends with `width="`
followed by a quote-free run.  The quote-free run must be the maximal
quote-free suffix, so there is a single candidate split. -/
def lookbehindBlocked (rb : List Char) : Bool :=
  List.isPrefixOf widthLB (rb.drop ((rb.takeWhile (fun c => !(c == '"'))).length))

/-- The replacement tail ` width="400" height="300">` for the dimension
injection (preceded in the output by `<svg` and the captured group). -/
def dimInject : List Char := " width=\"400\" height=\"300\">".data

/-- The scan of `/<svg([^>]*?)(?<!width="[^"]*")>/` (first match only):
`acc` holds the already scanned text reversed.  At a `<svg`, the lazy
group `([^>]*?)` extends to the first `>`; if the lookbehind blocks there
the whole position fails (the group cannot consume `>`), and scanning
resumes one character further on. -/
def svgInjectGo (acc : List Char) : List Char → Option (List Char)
  | [] => none
  | c :: r =>
    if List.isPrefixOf svgTag (c :: r) then
      let after := (c :: r).drop 4
      let grp := after.takeWhile (fun ch => !(ch == '>'))
      match after.drop grp.length with
      | '>' :: r2 =>
        if lookbehindBlocked (grp.reverse ++ ('g' :: 'v' :: 's' :: '<' :: acc)) then
          svgInjectGo (c :: acc) r
        else some (acc.reverse ++ svgTag ++ grp ++ dimInject ++ r2)
      | _ => svgInjectGo (c :: acc) r
    else svgInjectGo (c :: acc) r

/-- First-match replacement for the dimension injection; identity when the
regular expression has no match. -/
def replaceSvgTag (s : List Char) : List Char :=
  match svgInjectGo [] s with
  | some out => out
  | none => s

/-- Step 3: inject default dimensions when an explicit numeric width or
height is missing. -/
def dimStep (s : List Char) : List Char :=
  if !hasDimDigits widthKey s || !hasDimDigits heightKey s then replaceSvgTag s else s

/-- The literal `opacity`. -/
def opacityLit : List Char := ['o', 'p', 'a', 'c', 'i', 't', 'y']

/-- Parse `\s*=\s*"[^"]*"` (the part of an opacity attribute after the
word `opacity`); returns the remainder after the closing quote. -/
def parseOpacityAssign (s : List Char) : Option (List Char) :=
  match s.dropWhile isJsWs with
  | '=' :: t2 =>
    match t2.dropWhile isJsWs with
    | '"' :: t4 =>
      let v := t4.takeWhile (fun ch => !(ch == '"'))
      match t4.drop v.length with
      | '"' :: t5 => some t5
      | _ => none
    | _ => none
  | _ => none

/-- Head matcher of `/\s+opacity\s*=\s*"[^"]*"/g` (replacement empty):
one or more whitespace characters, then an opacity attribute. -/
def wsOpacityScanner : Scanner where
  parse s :=
    match s with
    | [] => none
    | c :: r =>
      if isJsWs c then
        let t := (c :: r).dropWhile isJsWs
        if List.isPrefixOf opacityLit t then
          (parseOpacityAssign (t.drop 7)).map (fun rest => ([], rest))
        else none
      else none

/-- Head matcher of `/opacity\s*=\s*"[^"]*"/g` (replacement empty). -/
def opacityScanner : Scanner where
  parse s :=
    if List.isPrefixOf opacityLit s then
      (parseOpacityAssign (s.drop 7)).map (fun rest => ([], rest))
    else none

/-- Step 4: if the content includes `opacity`, strip whitespace-led
opacity attributes, then bare opacity attributes. -/
def opacityStep (s : List Char) : List Char :=
  if hasMatch opacityLit s then genScan opacityScanner (genScan wsOpacityScanner s) else s

/-- The literal `<style`. -/
def styleOpen : List Char := ['<', 's', 't', 'y', 'l', 'e']

/-- The literal `</style>`. -/
def styleCloseTag : List Char := ['<', '/', 's', 't', 'y', 'l', 'e', '>']

/-- Lazy search for the first `</style>`: returns the body before it and
the remainder after it. -/
def findStyleClose : List Char → Option (List Char × List Char)
  | [] => none
  | c :: r =>
    if List.isPrefixOf styleCloseTag (c :: r) then some ([], (c :: r).drop 8)
    else (findStyleClose r).map (fun pr => (c :: pr.1, pr.2))

/-- Parse `\s*:\s*[^;]+;?` (the part of a style declaration after the word
`opacity`): whitespace, a colon, at least one non-semicolon character
(whitespace after the colon can serve as that character, matching the
backtracking behaviour of `\s*[^;]+`), and an optional semicolon. -/
def parseOpacityDecl (s : List Char) : Option (List Char) :=
  match s.dropWhile isJsWs with
  | ':' :: t2 =>
    let q := t2.takeWhile (fun ch => !(ch == ';'))
    if q.isEmpty then none
    else
      match t2.drop q.length with
      | ';' :: t3 => some t3
      | _ => some (t2.drop q.length)
  | _ => none

/-- Head matcher of the inner `/opacity\s*:\s*[^;]+;?/g`. -/
def declScanner : Scanner where
  parse s :=
    if List.isPrefixOf opacityLit s then
      (parseOpacityDecl (s.drop 7)).map (fun rest => ([], rest))
    else none

/-- The inner replacement applied to each matched style block. -/
def stripDeclsInStyle (m : List Char) : List Char := genScan declScanner m

/-- Head matcher of `/<style[^>]*>[\s\S]*?<\/style>/g` with the replacer
stripping opacity declarations from each matched block. -/
def styleScanner : Scanner where
  parse s :=
    if List.isPrefixOf styleOpen s then
      let after := s.drop 6
      let attrs := after.takeWhile (fun ch => !(ch == '>'))
      match after.drop attrs.length with
      | '>' :: r2 =>
        match findStyleClose r2 with
        | some (body, rest) =>
          some (stripDeclsInStyle (styleOpen ++ attrs ++ ('>' :: body) ++ styleCloseTag), rest)
        | none => none
      | _ => none
    else none

/-- Step 5: strip opacity declarations inside style blocks. -/
def styleStep (s : List Char) : List Char := genScan styleScanner s

/-- The SVG sanitizer `optimizeSvgForEpub`, steps in source order. -/
def optimizeSvgForEpub (s : List Char) : List Char :=
  styleStep (opacityStep (dimStep (stripXmlDecls (nsStep s))))

/-- The whitespace characters of `isJsWs`, as a list. -/
def wsChars : List Char := [' ', '\t', '\n', '\r', '\x0b', '\x0c', '\u00A0']

/-- A well-formed opacity attribute `opacity="v"`. -/
def opAttr (v : List Char) : List Char :=
  opacityLit ++ '=' :: '"' :: (v ++ ['"'])

/-- The literal `fill-opacity="0.5"`. -/
def fillAttr : List Char := ['f', 'i', 'l', 'l', '-'] ++ opAttr ['0', '.', '5']

/-- The literal `stroke-opacity="0.7"`. -/
def strokeAttr : List Char := ['s', 't', 'r', 'o', 'k', 'e', '-'] ++ opAttr ['0', '.', '7']

/-- Input for the idempotence counterexample: deleting the inner
`opacity="x"` splices `op` and `acity="y"` into a fresh opacity
attribute, which only a second run removes. -/
def c5CexInput : List Char := "opopacity=\"x\"acity=\"y\"".data

/-- Input for the opacity-token counterexample: a bare `opacity` word in
text content, not in attribute or declaration syntax. -/
def c6CexInput : List Char := "<svg>opacity</svg>".data

/-- The spec's end-to-end scenario 2: an SVG with `opacity` both as an
attribute and inside an inline style block. -/
def scenario2 : List Char :=
  "<svg width=\"100\" height=\"50\"><style>.a \x7b opacity: 0.5; \x7d</style><rect opacity=\"0.5\"/></svg>".data

/-- An SVG carrying hyphenated opacity attributes `fill-opacity="0.5"`
and `stroke-opacity="0.7"`. -/
def c9Input : List Char :=
  "<svg width=\"10\" height=\"10\"><rect fill-opacity=\"0.5\" stroke-opacity=\"0.7\"/></svg>".data

/-- Input for the malformed-markup counterexample: no `<svg>` root, but an
opacity attribute that the sanitizer strips anyway. -/
def c7CexInput : List Char := "opacity=\"0\"".data

/-- Witness input for the amended idempotence claim. -/
def c5WitInput : List Char := "<svg width=\"40\" height=\"30\"><rect opacity=\"0.5\"/></svg>".data

/-- Witness input for the amended pass-through claim. -/
def c7WitInput : List Char := "hello world".data

/-!
The two build scripts.  File-system effects are modelled by an explicit
environment (what the reads would return) and a result state (what is on
disk when the invocation ends).  A JavaScript detail that matters below:
`process.exit(1)` inside a `catch` block terminates the Node.js process
immediately — the pending `finally` block does NOT run, so the cleanup in
the `finally` of both scripts is skipped on the error path.
-/

/-- The fixed canonical chapter list (identical in both build scripts). -/
def chapterFiles : List String :=
  ["01-introduction.md", "02-katakana-basics.md", "03-readings-and-meanings.md",
   "04-daily-expressions.md", "05-classical-stories.md", "07-scenic-spots.md",
   "06-poetry-and-rhythm.md", "08-cultural-heritage.md", "09-music-and-anime.md"]

/-- `path.extname(file) === '.svg'`: the name's last dot starts `.svg` and
is not the first character of the name. -/
def isSvgName (n : String) : Bool :=
  match n.data.reverse with
  | 'g' :: 'v' :: 's' :: '.' :: rest => !rest.isEmpty
  | _ => false

/-- What the outside world would answer to the scripts' reads and
invocations: the illustrations directory listing with file contents
(`none` models `fs.readdirSync` throwing because the directory is
missing), the chapter file contents (`none` for a missing chapter, making
`fs.readFileSync` throw), and the exit status of the two converters. -/
structure BuildEnv where
  illustrationsListing : Option (List (String × List Char))
  chapterContent : String → Option (List Char)
  pandocOk : Bool
  wkOk : Bool

/-- How a script invocation ended: normal completion, an uncaught
exception, or `process.exit`. -/
inductive RunResult where
  | success : RunResult
  | uncaught : RunResult
  | exited : Nat → RunResult
  deriving DecidableEq

/-- What is on disk when an EPUB build invocation ends. -/
structure EpubBuildState where
  tempChaptersExists : Bool
  tempChapters : List (String × List Char)
  buildIllustrations : List (String × List Char)
  epubWritten : Bool
  deriving DecidableEq

/-- What is on disk when a PDF build invocation ends. -/
structure PdfBuildState where
  tempChaptersExists : Bool
  tempChapters : List (String × List Char)
  buildIllustrations : List (String × List Char)
  htmlWritten : Bool
  pdfWritten : Bool
  deriving DecidableEq

/-- The chapter staging loop (`chapterFiles.forEach`): read each chapter,
rewrite the asset references with `rep`, write it into the staging
directory.  Returns the staged files and whether every read succeeded; a
failing read throws out of the loop, leaving the files staged so far. -/
def stageRun (content : String → Option (List Char)) (rep : List Char) :
    List String → List (String × List Char) × Bool
  | [] => ([], true)
  | f :: fs =>
    match content f with
    | none => ([], false)
    | some c =>
      let rest := stageRun content rep fs
      ((f, replaceAll upat rep c) :: rest.1, rest.2)

/-- One invocation of `build-epub.js`.  Control flow in source order:
illustration staging and sanitizing (before the staging directory
exists), creation of `build/temp-chapters`, chapter staging (outside any
`try`), then `try { execSync(pandoc) } catch { process.exit(1) } finally
{ rmSync(temp) }`. -/
def runBuildEpub (env : BuildEnv) : RunResult × EpubBuildState :=
  match env.illustrationsListing with
  | none => (RunResult.uncaught, ⟨false, [], [], false⟩)
  | some ill =>
    let optimized := (ill.filter (fun pr => isSvgName pr.1)).map
      (fun pr => (pr.1, optimizeSvgForEpub pr.2))
    let stage := stageRun env.chapterContent epubRep chapterFiles
    if stage.2 then
      if env.pandocOk then
        (RunResult.success, ⟨false, [], optimized, true⟩)
      else
        (RunResult.exited 1, ⟨true, stage.1, optimized, false⟩)
    else
      (RunResult.uncaught, ⟨true, stage.1, optimized, false⟩)

/-- One invocation of `src/build-pdf.js`.  Control flow in source order:
illustration staging (no sanitizing in this script), creation of
`build/temp-chapters-pdf`, chapter staging (outside any `try`), then
`try { execSync(pandoc); execSync(wkhtmltopdf) } catch { process.exit(1) }
finally { rmSync(temp) }`; the `fs.unlinkSync(htmlOutputPath)` cleanup is
commented out in the source, so the intermediate HTML always stays. -/
def runBuildPdf (env : BuildEnv) : RunResult × PdfBuildState :=
  match env.illustrationsListing with
  | none => (RunResult.uncaught, ⟨false, [], [], false, false⟩)
  | some ill =>
    let staged := ill.filter (fun pr => isSvgName pr.1)
    let stage := stageRun env.chapterContent pdfRep chapterFiles
    if stage.2 then
      if env.pandocOk then
        if env.wkOk then
          (RunResult.success, ⟨false, [], staged, true, true⟩)
        else
          (RunResult.exited 1, ⟨true, stage.1, staged, true, false⟩)
      else
        (RunResult.exited 1, ⟨true, stage.1, staged, false, false⟩)
    else
      (RunResult.uncaught, ⟨true, stage.1, staged, false, false⟩)

/-!
The chapter resequencer: `reorderChapters` from
`static/common/js/common.js` lines 578–614.  File-tree nodes are JavaScript
objects with `name`, `type` and `path` fields; `fileMap` is a plain
object, i.e. an insertion-ordered association from names to nodes (the
chapter file names are not array indices, so JavaScript's
integer-key-first enumeration order does not reorder them).  The
`fileIndexMap` built at the top of the source function is never read, so
it has no counterpart here.
-/

/-- A file-tree node as served by `/api/files` (fields used by the
resequencer; `ftype` models the JavaScript `type` field). -/
structure TreeNode where
  name : String
  ftype : String
  path : String
  deriving DecidableEq

/-- One entry of the chapter ordering configuration. -/
structure ChapterEntry where
  title : String
  file : String
  deriving DecidableEq

/-- `m[k] = v` on a plain object: overwrite in place if the key exists,
else append. -/
def objSet (m : List (String × TreeNode)) (k : String) (v : TreeNode) :
    List (String × TreeNode) :=
  if m.any (fun pr => pr.1 == k) then
    m.map (fun pr => if pr.1 == k then (k, v) else pr)
  else m ++ [(k, v)]

/-- `delete m[k]` on a plain object: remove the key, keep the rest in
order. -/
def objDelete (m : List (String × TreeNode)) (k : String) :
    List (String × TreeNode) :=
  m.filter (fun pr => !(pr.1 == k))

/-- `m[k]` lookup on a plain object. -/
def objGet (m : List (String × TreeNode)) (k : String) : Option TreeNode :=
  (m.find? (fun pr => pr.1 == k)).map Prod.snd

/-- Build `fileMap`: only nodes with `type === 'file'` are inserted, keyed
by name. -/
def buildFileMap (chapterNodes : List TreeNode) : List (String × TreeNode) :=
  chapterNodes.foldl (fun m f => if f.ftype == "file" then objSet m f.name f else m) []

/-- The first pass over the configuration: for each entry whose file is in
the map, emit a copy of the node with its name replaced by the entry's
title and delete it from the map. -/
def firstPass : List ChapterEntry → List (String × TreeNode) →
    List TreeNode × List (String × TreeNode)
  | [], m => ([], m)
  | e :: rest, m =>
    match objGet m e.file with
    | some f =>
      let res := firstPass rest (objDelete m e.file)
      ({ f with name := e.title } :: res.1, res.2)
    | none => firstPass rest m

/-- `reorderChapters(chapterFiles, chapterConfig)`: configured entries
first (with display titles), then the remaining map values in insertion
order. -/
def reorderChapters (chapterNodes : List TreeNode) (chapterConfig : List ChapterEntry) :
    List TreeNode :=
  let res := firstPass chapterConfig (buildFileMap chapterNodes)
  res.1 ++ res.2.map Prod.snd

/-- Environment for the staging-failure counterexample: the illustrations
directory is readable (and empty), every chapter read throws, the
converters would succeed. -/
def c1CexEnv : BuildEnv := ⟨some [], fun _ => none, true, true⟩

/-- Environment of a PDF build in which everything succeeds. -/
def happyPdfEnv : BuildEnv := ⟨some [], fun _ => some ['x'], true, true⟩

/-- Environment of an EPUB build in which pandoc exits non-zero. -/
def panFailEnv : BuildEnv := ⟨some [], fun _ => some ['x'], false, true⟩

/-- Environment of a PDF build in which wkhtmltopdf exits non-zero. -/
def wkFailEnv : BuildEnv := ⟨some [], fun _ => some ['x'], true, false⟩

/-- Canonical nodes for the C3 witness. -/
def c3Nodes : List TreeNode :=
  [⟨"a.md", "file", "src/chapters/a.md"⟩, ⟨"b.md", "file", "src/chapters/b.md"⟩,
   ⟨"c.md", "file", "src/chapters/c.md"⟩]

/-- Ordering configuration for the C3 witness (one retitled entry, one
stale entry naming an unknown file, one duplicate). -/
def c3Cfg : List ChapterEntry :=
  [⟨"B", "b.md"⟩, ⟨"gone", "zz.md"⟩, ⟨"B again", "b.md"⟩]

/-- Splitting a prefix fact across an append: if `p` begins `u ++ v` but `u`
is shorter than `p`, then `u` is an initial segment of `p` and the rest of
`p` begins `v`. -/
theorem prefixOf_split (p u v : List Char) (h : List.isPrefixOf p (u ++ v) = true)
    (hl : u.length < p.length) : u = p.take u.length ∧ List.isPrefixOf (p.drop u.length) v = true := by
  induction u generalizing p with
  | nil => simpa using h
  | cons c cs ih =>
    cases p with
    | nil => simp at hl
    | cons d ds =>
      simp only [List.cons_append, List.isPrefixOf, Bool.and_eq_true, beq_iff_eq] at h
      obtain ⟨rfl, h2⟩ := h
      have h3 := ih ds h2 (by simpa using Nat.lt_of_succ_lt_succ hl)
      refine ⟨?_, by simpa using h3.2⟩
      rw [List.length_cons, List.take_succ_cons]
      exact congrArg₂ List.cons rfl h3.1

/-- If `p` begins `u ++ v` and `p` is no longer than `u`, then `p` begins `u`. -/
theorem prefixOf_long (p u v : List Char) (h : List.isPrefixOf p (u ++ v) = true)
    (hl : p.length ≤ u.length) : List.isPrefixOf p u = true := by
  induction u generalizing p with
  | nil => cases p with
    | nil => simp [List.isPrefixOf]
    | cons d ds => simp at hl
  | cons c cs ih =>
    cases p with
    | nil => simp [List.isPrefixOf]
    | cons d ds =>
      simp only [List.cons_append, List.isPrefixOf, Bool.and_eq_true, beq_iff_eq] at h ⊢
      exact ⟨h.1, ih ds h.2 (by simpa using Nat.lt_succ_iff.mp (Nat.lt_of_lt_of_le (Nat.lt_succ_self _) hl))⟩

/-- A prefix of `u` is a prefix of `u ++ v`. -/
theorem prefixOf_append_weaken (p u v : List Char) (h : List.isPrefixOf p u = true) :
    List.isPrefixOf p (u ++ v) = true := by
  induction u generalizing p with
  | nil => cases p with
    | nil => simp [List.isPrefixOf]
    | cons d ds => simp [List.isPrefixOf] at h
  | cons c cs ih =>
    cases p with
    | nil => simp [List.isPrefixOf]
    | cons d ds =>
      simp only [List.cons_append, List.isPrefixOf, Bool.and_eq_true, beq_iff_eq] at h ⊢
      exact ⟨h.1, ih ds h.2⟩

/-- A prefix is never longer than the list it begins. -/
theorem prefixOf_length (p s : List Char) (h : List.isPrefixOf p s = true) : p.length ≤ s.length := by
  induction s generalizing p with
  | nil => cases p with
    | nil => simp
    | cons d ds => simp [List.isPrefixOf] at h
  | cons c cs ih =>
    cases p with
    | nil => simp
    | cons d ds =>
      simp only [List.isPrefixOf, Bool.and_eq_true, beq_iff_eq] at h
      simpa using Nat.succ_le_succ (ih ds h.2)

/-- A list with a prefix `p` decomposes as `p` followed by the rest. -/
theorem prefixOf_eats (p s : List Char) (h : List.isPrefixOf p s = true) :
    s = p ++ s.drop p.length := by
  induction s generalizing p with
  | nil => cases p with
    | nil => simp
    | cons d ds => simp [List.isPrefixOf] at h
  | cons c cs ih =>
    cases p with
    | nil => simp
    | cons d ds =>
      simp only [List.isPrefixOf, Bool.and_eq_true, beq_iff_eq] at h
      obtain ⟨rfl, h2⟩ := h
      simpa using ih ds h2

/-- A match at the front of the list is a match. -/
theorem hasMatch_of_prefixOf (p s : List Char) (h : List.isPrefixOf p s = true) :
    hasMatch p s = true := by
  cases s with
  | nil => cases p with
    | nil => rfl
    | cons d ds => simp [List.isPrefixOf] at h
  | cons c r => simp [hasMatch, h]

/-- A match in the tail is a match. -/
theorem hasMatch_tail (p : List Char) (c : Char) (r : List Char) (h : hasMatch p r = true) :
    hasMatch p (c :: r) = true := by
  simp [hasMatch, h]

/-- A match after dropping some front characters is a match. -/
theorem hasMatch_drop (p s : List Char) (j : Nat) (h : hasMatch p (s.drop j) = true) :
    hasMatch p s = true := by
  induction s generalizing j with
  | nil => simpa using h
  | cons c r ih =>
    cases j with
    | zero => simpa using h
    | succ j => exact hasMatch_tail _ _ _ (ih j (by simpa using h))

/-- A match in the left part of an append is a match in the append. -/
theorem hasMatch_append_left (p u v : List Char) (h : hasMatch p u = true) :
    hasMatch p (u ++ v) = true := by
  induction u with
  | nil =>
    cases p with
    | nil => cases v with
      | nil => rfl
      | cons c r => simp [hasMatch, List.isPrefixOf]
    | cons d ds => simp [hasMatch, List.isEmpty] at h
  | cons c r ih =>
    simp only [hasMatch, Bool.or_eq_true] at h
    rcases h with h | h
    · exact hasMatch_of_prefixOf _ _ (by simpa using prefixOf_append_weaken p (c :: r) v h)
    · exact hasMatch_tail _ _ _ (ih h)

/-- A match in the right part of an append is a match in the append. -/
theorem hasMatch_append_right (p u v : List Char) (h : hasMatch p v = true) :
    hasMatch p (u ++ v) = true := by
  induction u with
  | nil => simpa using h
  | cons c r ih => exact hasMatch_tail _ _ _ ih

/-- An occurrence at position `j` (as a prefix of `s.drop j`) is a match. -/
theorem hasMatch_of_drop_prefixOf (p s : List Char) (j : Nat)
    (h : List.isPrefixOf p (s.drop j) = true) : hasMatch p s = true :=
  hasMatch_drop p s j (hasMatch_of_prefixOf _ _ h)

/-- In a match-free list, no position starts an occurrence. -/
theorem no_occ_of_not_hasMatch (p s : List Char) (h : hasMatch p s = false) (j : Nat) :
    List.isPrefixOf p (s.drop j) = false := by
  cases hj : List.isPrefixOf p (s.drop j) with
  | false => rfl
  | true => rw [hasMatch_of_drop_prefixOf p s j hj] at h; cases h

/-- A match-free list contains zero occurrences. -/
theorem countOcc_zero_of_not_hasMatch (p s : List Char) (h : hasMatch p s = false) :
    countOcc p s = 0 := by
  induction s with
  | nil => rfl
  | cons c r ih =>
    simp only [hasMatch, Bool.or_eq_false_iff] at h
    simp [countOcc, h.1, ih h.2]

/-- Occurrence counting distributes over an append when, position by position
inside the left part, extending by the right part neither creates nor
destroys a front match. -/
theorem countOcc_append_of_boundary (p g cont : List Char)
    (h : ∀ j, j < g.length →
      List.isPrefixOf p (g.drop j ++ cont) = List.isPrefixOf p (g.drop j)) :
    countOcc p (g ++ cont) = countOcc p g + countOcc p cont := by
  induction g with
  | nil => simp [countOcc]
  | cons c cs ih =>
    have h0 := h 0 (by simp)
    simp only [List.drop_zero] at h0
    have ih2 := ih (fun j hj => by simpa using h (j + 1) (by simpa using Nat.succ_lt_succ hj))
    calc countOcc p ((c :: cs) ++ cont)
        = (if List.isPrefixOf p ((c :: cs) ++ cont) then 1 else 0) + countOcc p (cs ++ cont) := rfl
      _ = (if List.isPrefixOf p (c :: cs) then 1 else 0) + (countOcc p cs + countOcc p cont) := by
          rw [h0, ih2]
      _ = countOcc p (c :: cs) + countOcc p cont := (Nat.add_assoc _ _ _).symm

/-- A list none of whose positions starts an occurrence contains zero
occurrences. -/
theorem countOcc_zero_of_no_pos (p g : List Char)
    (h : ∀ j, j < g.length → List.isPrefixOf p (g.drop j) = false) :
    countOcc p g = 0 := by
  induction g with
  | nil => rfl
  | cons c cs ih =>
    have h0 := h 0 (by simp)
    simp only [List.drop_zero] at h0
    have ih2 := ih (fun j hj => by simpa using h (j + 1) (by simpa using Nat.succ_lt_succ hj))
    simp [countOcc, h0, ih2]

/-- Occurrence counting over an append where no position of the left part
(extended by the right part) starts an occurrence at all. -/
theorem countOcc_append_of_none (p g cont : List Char)
    (h : ∀ j, j < g.length → List.isPrefixOf p (g.drop j ++ cont) = false) :
    countOcc p (g ++ cont) = countOcc p cont := by
  have hz : ∀ j, j < g.length → List.isPrefixOf p (g.drop j) = false := by
    intro j hj
    cases hg : List.isPrefixOf p (g.drop j) with
    | false => rfl
    | true =>
      have hw := prefixOf_append_weaken p (g.drop j) cont hg
      rw [h j hj] at hw; cases hw
  have hb : ∀ j, j < g.length →
      List.isPrefixOf p (g.drop j ++ cont) = List.isPrefixOf p (g.drop j) := by
    intro j hj; rw [h j hj, hz j hj]
  rw [countOcc_append_of_boundary p g cont hb, countOcc_zero_of_no_pos p g hz]
  exact Nat.zero_add _

/-- Fuel is irrelevant once it exceeds the input length, for a consuming
scanner. -/
theorem genScanF_irrel (P : Scanner)
    (hcons : ∀ s e r, P.parse s = some (e, r) → r.length < s.length) :
    ∀ f₁ f₂ s, s.length < f₁ → s.length < f₂ →
    genScanF P f₁ s = genScanF P f₂ s := by
  intro f₁
  induction f₁ using Nat.strong_induction_on with
  | _ f₁ ih =>
    intro f₂ s h1 h2
    match f₁, f₂, s with
    | 0, _, s => omega
    | _ + 1, 0, s => omega
    | _ + 1, _ + 1, [] => rfl
    | g₁ + 1, g₂ + 1, c :: r =>
      simp only [genScanF]
      cases hp : P.parse (c :: r) with
      | none =>
        have hr : r.length < g₁ ∧ r.length < g₂ := by simp at h1 h2; omega
        rw [ih g₁ (Nat.lt_succ_self _) g₂ r hr.1 hr.2]
      | some er =>
        obtain ⟨e, rem⟩ := er
        have hc := hcons _ _ _ hp
        have hr : rem.length < g₁ ∧ rem.length < g₂ := by simp at h1 h2 hc ⊢; omega
        dsimp only
        rw [ih g₁ (Nat.lt_succ_self _) g₂ rem hr.1 hr.2]

/-- Scanning the empty input yields the empty output. -/
theorem genScan_nil (P : Scanner) : genScan P [] = [] := rfl

/-- Scanning with no match at the head emits the head character. -/
theorem genScan_cons_none (P : Scanner) (c : Char) (r : List Char)
    (h : P.parse (c :: r) = none) : genScan P (c :: r) = c :: genScan P r := by
  show genScanF P (r.length + 1 + 1) (c :: r) = c :: genScanF P (r.length + 1) r
  simp only [genScanF, h]

/-- Scanning with a match at the head emits the replacement and resumes
after the match. -/
theorem genScan_some (P : Scanner)
    (hcons : ∀ s e r, P.parse s = some (e, r) → r.length < s.length)
    (s e rem : List Char)
    (h : P.parse s = some (e, rem)) : genScan P s = e ++ genScan P rem := by
  have hc := hcons _ _ _ h
  cases s with
  | nil => simp at hc
  | cons c r =>
    show genScanF P (r.length + 1 + 1) (c :: r) = e ++ genScanF P (rem.length + 1) rem
    simp only [genScanF, h]
    rw [genScanF_irrel P hcons (r.length + 1) (rem.length + 1) rem (by simp at hc ⊢; omega)
      (Nat.lt_succ_self _)]

/-- A scanner that never matches anywhere in `s` (nor in any of its
suffixes) leaves `s` unchanged. -/
theorem genScan_id (P : Scanner) (s : List Char)
    (h : ∀ j, P.parse (s.drop j) = none) : genScan P s = s := by
  induction s with
  | nil => rfl
  | cons c r ih =>
    rw [genScan_cons_none P c r (by simpa using h 0)]
    rw [ih (fun j => by simpa using h (j + 1))]

/-- A scanner with no match starting inside `x` (however far the match
would reach into `t`) passes `x` through and continues with `t`. -/
theorem genScan_append (P : Scanner) (x t : List Char)
    (h : ∀ j, j < x.length → P.parse (x.drop j ++ t) = none) :
    genScan P (x ++ t) = x ++ genScan P t := by
  induction x with
  | nil => simp
  | cons c cs ih =>
    have h0 := h 0 (by simp)
    simp only [List.drop_zero] at h0
    have ih2 := ih (fun j hj => by simpa using h (j + 1) (by simpa using Nat.succ_lt_succ hj))
    calc genScan P ((c :: cs) ++ t) = genScan P (c :: (cs ++ t)) := rfl
      _ = c :: genScan P (cs ++ t) := genScan_cons_none P c (cs ++ t) (by exact h0)
      _ = c :: (cs ++ genScan P t) := by rw [ih2]
      _ = (c :: cs) ++ genScan P t := rfl

/-- The literal scanner consumes at least one character on a match. -/
theorem litScanner_consumes (p r : List Char) :
    ∀ s e rem, (litScanner p r).parse s = some (e, rem) → rem.length < s.length := by
  intro s e rem h
  dsimp only [litScanner] at h
  by_cases hc : p ≠ [] ∧ List.isPrefixOf p s = true
  · rw [if_pos hc] at h
    cases h
    have h1 : p.length ≤ s.length := prefixOf_length p s hc.2
    have h2 : 0 < p.length := List.length_pos.mpr hc.1
    simp only [List.length_drop]
    omega
  · rw [if_neg hc] at h
    cases h

/-- The pattern is the character list of `../illustrations/`. -/
theorem upat_eq_string : upat = "../illustrations/".data := by decide

/-- The EPUB replacement is the character list of `illustrations/`. -/
theorem epubRep_eq_string : epubRep = "illustrations/".data := by decide

/-- The PDF replacement is the character list of `./illustrations/`. -/
theorem pdfRep_eq_string : pdfRep = "./illustrations/".data := by decide

/-!
Concrete junction computations for the two pattern/replacement pairs.
The three strings involved are border-free, and none of them can begin
inside one of the others except at the recorded exceptional offsets
(`../illustrations/` begins three characters before the end of
`../../illustrations/`, contains `illustrations/` at offset 3 and
`./illustrations/` at offset 1).  Each lemma quantifies over the unknown
continuation of the text.
-/

/-- Occurrences of the pattern in `upat ++ Y`: one at the front, none
overlapping it. -/
theorem cnt_upat_upat (Y : List Char) : countOcc upat (upat ++ Y) = 1 + countOcc upat Y := by
  simp [upat, countOcc, List.isPrefixOf]

/-- The pattern cannot begin inside or at the front of `epubRep ++ X`
until `epubRep` has been passed. -/
theorem cnt_upat_epubRep (X : List Char) : countOcc upat (epubRep ++ X) = countOcc upat X := by
  simp [upat, epubRep, countOcc, List.isPrefixOf]

/-- The pattern cannot begin inside or at the front of `pdfRep ++ X`
until `pdfRep` has been passed. -/
theorem cnt_upat_pdfRep (X : List Char) : countOcc upat (pdfRep ++ X) = countOcc upat X := by
  simp [upat, pdfRep, countOcc, List.isPrefixOf]

/-- Occurrences of the EPUB replacement in `epubRep ++ X`: exactly one at
the front. -/
theorem cnt_epubRep_epubRep (X : List Char) :
    countOcc epubRep (epubRep ++ X) = 1 + countOcc epubRep X := by
  simp [epubRep, countOcc, List.isPrefixOf]

/-- Occurrences of the PDF replacement in `pdfRep ++ X`: exactly one at
the front. -/
theorem cnt_pdfRep_pdfRep (X : List Char) :
    countOcc pdfRep (pdfRep ++ X) = 1 + countOcc pdfRep X := by
  simp [pdfRep, countOcc, List.isPrefixOf]

/-- Occurrences of the EPUB replacement in `upat ++ Y`: exactly the one
at offset 3 inside the pattern. -/
theorem cnt_epubRep_upat (Y : List Char) :
    countOcc epubRep (upat ++ Y) = 1 + countOcc epubRep Y := by
  simp [upat, epubRep, countOcc, List.isPrefixOf]

/-- Occurrences of the PDF replacement in `upat ++ Y`: exactly the one
at offset 1 inside the pattern. -/
theorem cnt_pdfRep_upat (Y : List Char) :
    countOcc pdfRep (upat ++ Y) = 1 + countOcc pdfRep Y := by
  simp [upat, pdfRep, countOcc, List.isPrefixOf]

/-- If the pattern begins a proper suffix `u` of text followed by
`epubRep`, then `u` is exactly `../` — the only way a pattern occurrence
can straddle the junction of kept text and an EPUB replacement. -/
theorem span_upat_epubRep (u X : List Char) (hne : u ≠ []) (hlt : u.length < 17)
    (h : List.isPrefixOf upat (u ++ (epubRep ++ X)) = true) : u = ['.', '.', '/'] := by
  have hpos : 0 < u.length := List.length_pos.mpr hne
  obtain ⟨h1, h2⟩ := prefixOf_split upat u (epubRep ++ X) h (by simpa [upat] using hlt)
  set n := u.length with hn
  interval_cases n
  all_goals first
    | (simp [upat, epubRep, List.isPrefixOf] at h2; done)
    | (rw [h1]; decide)

/-- If the pattern begins a proper suffix `u` of text followed by
`pdfRep`, then `u` is exactly `.` — the only straddling occurrence for
the PDF replacement. -/
theorem span_upat_pdfRep (u X : List Char) (hne : u ≠ []) (hlt : u.length < 17)
    (h : List.isPrefixOf upat (u ++ (pdfRep ++ X)) = true) : u = ['.'] := by
  have hpos : 0 < u.length := List.length_pos.mpr hne
  obtain ⟨h1, h2⟩ := prefixOf_split upat u (pdfRep ++ X) h (by simpa [upat] using hlt)
  set n := u.length with hn
  interval_cases n
  all_goals first
    | (simp [upat, pdfRep, List.isPrefixOf] at h2; done)
    | (rw [h1]; decide)

/-- The pattern has no border: it cannot begin strictly inside a
pattern occurrence. -/
theorem span_upat_upat (u Y : List Char) (hne : u ≠ []) (hlt : u.length < 17)
    (h : List.isPrefixOf upat (u ++ (upat ++ Y)) = true) : False := by
  have hpos : 0 < u.length := List.length_pos.mpr hne
  obtain ⟨h1, h2⟩ := prefixOf_split upat u (upat ++ Y) h (by simpa [upat] using hlt)
  set n := u.length with hn
  interval_cases n
  all_goals simp [upat, List.isPrefixOf] at h2

/-- The EPUB replacement has no border: it cannot begin strictly inside
an emitted EPUB replacement. -/
theorem span_epubRep_epubRep (u X : List Char) (hne : u ≠ []) (hlt : u.length < 14)
    (h : List.isPrefixOf epubRep (u ++ (epubRep ++ X)) = true) : False := by
  have hpos : 0 < u.length := List.length_pos.mpr hne
  obtain ⟨h1, h2⟩ := prefixOf_split epubRep u (epubRep ++ X) h (by simpa [epubRep] using hlt)
  set n := u.length with hn
  interval_cases n
  all_goals simp [epubRep, List.isPrefixOf] at h2

/-- The PDF replacement has no border: it cannot begin strictly inside
an emitted PDF replacement. -/
theorem span_pdfRep_pdfRep (u X : List Char) (hne : u ≠ []) (hlt : u.length < 16)
    (h : List.isPrefixOf pdfRep (u ++ (pdfRep ++ X)) = true) : False := by
  have hpos : 0 < u.length := List.length_pos.mpr hne
  obtain ⟨h1, h2⟩ := prefixOf_split pdfRep u (pdfRep ++ X) h (by simpa [pdfRep] using hlt)
  set n := u.length with hn
  interval_cases n
  all_goals simp [pdfRep, List.isPrefixOf] at h2

/-- The EPUB replacement cannot begin strictly before a pattern
occurrence and reach into it. -/
theorem span_epubRep_upat (u Y : List Char) (hne : u ≠ []) (hlt : u.length < 14)
    (h : List.isPrefixOf epubRep (u ++ (upat ++ Y)) = true) : False := by
  have hpos : 0 < u.length := List.length_pos.mpr hne
  obtain ⟨h1, h2⟩ := prefixOf_split epubRep u (upat ++ Y) h (by simpa [epubRep] using hlt)
  set n := u.length with hn
  interval_cases n
  all_goals simp [epubRep, upat, List.isPrefixOf] at h2

/-- The PDF replacement cannot begin strictly before a pattern
occurrence and reach into it. -/
theorem span_pdfRep_upat (u Y : List Char) (hne : u ≠ []) (hlt : u.length < 16)
    (h : List.isPrefixOf pdfRep (u ++ (upat ++ Y)) = true) : False := by
  have hpos : 0 < u.length := List.length_pos.mpr hne
  obtain ⟨h1, h2⟩ := prefixOf_split pdfRep u (upat ++ Y) h (by simpa [pdfRep] using hlt)
  set n := u.length with hn
  interval_cases n
  all_goals simp [pdfRep, upat, List.isPrefixOf] at h2

/-- When no occurrence of `p` can straddle the junction of `g` and
`cont`, a front-match of `p` at any suffix of `g` extended by `cont` is
the same as without `cont`. -/
theorem boundary_eq_of_span (p g cont : List Char)
    (hspan : ∀ u, u ≠ [] → u.length < p.length →
      List.isPrefixOf p (u ++ cont) = true → False) :
    ∀ j, j < g.length →
      List.isPrefixOf p (g.drop j ++ cont) = List.isPrefixOf p (g.drop j) := by
  intro j hj
  cases hl : List.isPrefixOf p (g.drop j ++ cont) with
  | true =>
    have hu : g.drop j ≠ [] := by
      intro hc
      have := congrArg List.length hc
      simp at this
      omega
    by_cases hlen : p.length ≤ (g.drop j).length
    · exact (prefixOf_long _ _ _ hl hlen).symm
    · exact absurd hl (fun hl => hspan _ hu (by omega) hl)
  | false =>
    cases hr : List.isPrefixOf p (g.drop j) with
    | false => rfl
    | true =>
      have := prefixOf_append_weaken p (g.drop j) cont hr
      rw [hl] at this
      cases this

/-- Unfolding: joining a list headed by `g` with a nonempty tail. -/
theorem joinTail_eq (sep : List Char) (segs : List (List Char)) (hne : segs ≠ []) :
    joinTail sep segs = sep ++ joinWith sep segs := by
  cases segs with
  | nil => exact absurd rfl hne
  | cons g rest => simp [joinTail, joinWith]

/-- The head matcher of literal replacement, unfolded. -/
theorem litScanner_parse_eq (p r s : List Char) :
    (litScanner p r).parse s =
      if p ≠ [] ∧ List.isPrefixOf p s = true then some (r, s.drop p.length) else none := rfl

/-- Segment decomposition of leftmost global replacement of the asset
pattern (auxiliary, by induction on a length bound): the input is the
pattern-separated join of match-free segments and every replacement output
is the same segments joined by the replacement text. -/
theorem replaceAll_segsAux : ∀ n s, s.length ≤ n → ∃ segs : List (List Char),
    segs ≠ [] ∧ (∀ g ∈ segs, hasMatch upat g = false) ∧ joinWith upat segs = s ∧
    ∀ r, replaceAll upat r s = joinWith r segs := by
  intro n
  induction n with
  | zero =>
    intro s hs
    have hnil : s = [] := List.eq_nil_of_length_eq_zero (Nat.le_zero.mp hs)
    subst hnil
    exact ⟨[[]], by simp, by intro g hg; simp at hg; simp [hg, hasMatch, upat], rfl,
      fun r => rfl⟩
  | succ n ih =>
    intro s hs
    cases hm : List.isPrefixOf upat s with
    | true =>
      have hd := prefixOf_eats upat s hm
      have hup : 0 < upat.length := by decide
      have hsl : upat.length ≤ s.length := prefixOf_length _ _ hm
      have hlen : (s.drop upat.length).length ≤ n := by
        simp only [List.length_drop]
        omega
      obtain ⟨segs', hne', hfree', hjoin', hrep'⟩ := ih (s.drop upat.length) hlen
      refine ⟨[] :: segs', by simp, ?_, ?_, ?_⟩
      · intro g hg
        rcases List.mem_cons.mp hg with hg | hg
        · simp [hg, hasMatch, upat]
        · exact hfree' g hg
      · show [] ++ joinTail upat segs' = s
        rw [List.nil_append, joinTail_eq upat segs' hne', hjoin']
        exact hd.symm
      · intro r
        have hp : (litScanner upat r).parse s = some (r, s.drop upat.length) := by
          rw [litScanner_parse_eq]
          rw [if_pos ⟨by decide, hm⟩]
        have h1 : replaceAll upat r s = r ++ replaceAll upat r (s.drop upat.length) :=
          genScan_some _ (litScanner_consumes upat r) _ _ _ hp
        rw [h1, hrep' r]
        show r ++ joinWith r segs' = [] ++ joinTail r segs'
        rw [List.nil_append, joinTail_eq r segs' hne']
    | false =>
      cases s with
      | nil =>
        exact ⟨[[]], by simp, by intro g hg; simp at hg; simp [hg, hasMatch, upat], rfl,
          fun r => rfl⟩
      | cons c s' =>
        have hlen : s'.length ≤ n := by simpa using hs
        obtain ⟨segs', hne', hfree', hjoin', hrep'⟩ := ih s' hlen
        cases segs' with
        | nil => exact absurd rfl hne'
        | cons g rest =>
          have hjoin2 : (c :: g) ++ joinTail upat rest = c :: s' := by
            have : g ++ joinTail upat rest = s' := hjoin'
            rw [List.cons_append, this]
          refine ⟨(c :: g) :: rest, by simp, ?_, hjoin2, ?_⟩
          · intro g' hg'
            rcases List.mem_cons.mp hg' with hg' | hg'
            · subst hg'
              show (List.isPrefixOf upat (c :: g) || hasMatch upat g) = false
              have hfg : hasMatch upat g = false := hfree' g (by simp)
              cases hpre : List.isPrefixOf upat (c :: g) with
              | false => simp [hpre, hfg]
              | true =>
                have hw := prefixOf_append_weaken upat (c :: g) (joinTail upat rest) hpre
                rw [hjoin2] at hw
                rw [hw] at hm
                cases hm
            · exact hfree' g' (List.mem_cons_of_mem _ hg')
          · intro r
            have hp : (litScanner upat r).parse (c :: s') = none := by
              rw [litScanner_parse_eq]
              rw [if_neg]
              intro hc
              rw [hm] at hc
              exact absurd hc.2 (by simp)
            have h1 : replaceAll upat r (c :: s') = c :: replaceAll upat r s' :=
              genScan_cons_none _ _ _ hp
            rw [h1, hrep' r]
            show c :: joinWith r (g :: rest) = (c :: g) ++ joinTail r rest
            rw [List.cons_append]
            rfl

/-- Segment decomposition of the path rewriter, for any replacement text. -/
theorem replaceAll_segments (s : List Char) : ∃ segs : List (List Char),
    segs ≠ [] ∧ (∀ g ∈ segs, hasMatch upat g = false) ∧ joinWith upat segs = s ∧
    ∀ r, replaceAll upat r s = joinWith r segs :=
  replaceAll_segsAux s.length s le_rfl

/-- A list is a prefix of itself extended by anything. -/
theorem prefixOf_self_append (x t : List Char) : List.isPrefixOf x (x ++ t) = true := by
  induction x with
  | nil => simp [List.isPrefixOf]
  | cons c cs ih => simp [List.isPrefixOf, ih]

/-- The staging loop succeeds as a whole iff every chapter read does. -/
theorem stageRun_flag (content : String → Option (List Char)) (rep : List Char) :
    ∀ fs, (stageRun content rep fs).2 = true ↔ ∀ f ∈ fs, (content f).isSome = true := by
  intro fs
  induction fs with
  | nil => simp [stageRun]
  | cons f fs ih =>
    cases hc : content f with
    | none => simp [stageRun, hc]
    | some c => simp [stageRun, hc, ih]

/-- Deleting a key from a plain object keeps an in-order sub-association. -/
theorem objDelete_sublist (m : List (String × TreeNode)) (k : String) :
    (objDelete m k).Sublist m :=
  List.filter_sublist _

/-- With pairwise distinct keys, a successful lookup splits the object
(up to permutation) into the found pair and the deletion remainder. -/
theorem objGet_perm (m : List (String × TreeNode)) (k : String) (f : TreeNode)
    (hnd : (m.map Prod.fst).Nodup) (h : objGet m k = some f) :
    m.Perm ((k, f) :: objDelete m k) := by
  induction m with
  | nil => simp [objGet] at h
  | cons pr rest ih =>
    cases hpk : (pr.1 == k) with
    | true =>
      have hk : pr.1 = k := by simpa using hpk
      have hval : pr.2 = f := by
        simp [objGet, List.find?_cons_of_pos, hpk] at h
        exact h
      have hrest : objDelete (pr :: rest) k = rest := by
        have hni : ∀ pr' ∈ rest, ¬(pr'.1 == k) = true := by
          intro pr' hpr' hc
          have h1 : pr'.1 = k := by simpa using hc
          have h2 : pr.1 ∈ rest.map Prod.fst := by
            rw [hk, ← h1]
            exact List.mem_map_of_mem _ hpr'
          rw [List.map_cons, List.nodup_cons] at hnd
          exact hnd.1 h2
        show List.filter _ (pr :: rest) = rest
        rw [List.filter_cons_of_neg (by simp [hpk]),
          List.filter_eq_self.mpr (fun pr' hpr' => by simp [hni pr' hpr'])]
      rw [hrest]
      have hpr : pr = (k, f) := by
        cases pr with
        | mk a b => simp at hk hval; rw [hk, hval]
      rw [hpr]
    | false =>
      have hget : objGet rest k = some f := by
        simpa [objGet, List.find?_cons_of_neg, hpk] using h
      rw [List.map_cons, List.nodup_cons] at hnd
      have ihr := ih hnd.2 hget
      have hdel : objDelete (pr :: rest) k = pr :: objDelete rest k := by
        show List.filter _ (pr :: rest) = pr :: List.filter _ rest
        rw [List.filter_cons_of_pos (by simp [hpk])]
      rw [hdel]
      exact (List.Perm.cons pr ihr).trans (List.Perm.swap (k, f) pr (objDelete rest k))

/-- A successful object lookup comes from a member pair with the looked-up
key. -/
theorem objGet_mem (m : List (String × TreeNode)) (k : String) (f : TreeNode)
    (h : objGet m k = some f) :
    ∃ pr0, pr0 ∈ m ∧ (pr0.1 == k) = true ∧ pr0.2 = f := by
  unfold objGet at h
  cases hf : m.find? (fun pr => pr.1 == k) with
  | none => rw [hf] at h; cases h
  | some pr0 =>
    rw [hf] at h
    have hp := @List.find?_some (String × TreeNode) (fun pr => pr.1 == k) pr0 m hf
    exact ⟨pr0, List.mem_of_find?_eq_some hf, by simpa using hp, by simpa using h⟩

/-- The first pass: the emitted paths together with the remaining map's
paths are a permutation of the original map's paths; the remaining map is
an in-order sub-association; every emitted node is a configured copy of a
map value with its name replaced by the configured title. -/
theorem firstPass_spec (cfg : List ChapterEntry) :
    ∀ m : List (String × TreeNode), (m.map Prod.fst).Nodup →
    ((firstPass cfg m).1.map TreeNode.path ++
        (firstPass cfg m).2.map (fun pr => pr.2.path)).Perm
      (m.map (fun pr => pr.2.path)) ∧
    (firstPass cfg m).2.Sublist m ∧
    ∀ x ∈ (firstPass cfg m).1, ∃ e ∈ cfg, ∃ pr ∈ m,
      x = { pr.2 with name := e.title } ∧ pr.1 = e.file := by
  induction cfg with
  | nil => intro m _; exact ⟨by simp [firstPass], by simp [firstPass], by simp [firstPass]⟩
  | cons e rest ih =>
    intro m hnd
    cases hg : objGet m e.file with
    | none =>
      have hr := ih m hnd
      refine ⟨?_, ?_, ?_⟩
      · simpa [firstPass, hg] using hr.1
      · simpa [firstPass, hg] using hr.2.1
      · intro x hx
        rw [show firstPass (e :: rest) m = firstPass rest m by simp [firstPass, hg]] at hx
        obtain ⟨e', he', pr, hpr, hx1, hx2⟩ := hr.2.2 x hx
        exact ⟨e', List.mem_cons_of_mem _ he', pr, hpr, hx1, hx2⟩
    | some f =>
      have hnd' : ((objDelete m e.file).map Prod.fst).Nodup :=
        hnd.sublist ((objDelete_sublist m e.file).map Prod.fst)
      have hr := ih (objDelete m e.file) hnd'
      have hperm := objGet_perm m e.file f hnd hg
      have hfp : firstPass (e :: rest) m =
          ({ f with name := e.title } :: (firstPass rest (objDelete m e.file)).1,
            (firstPass rest (objDelete m e.file)).2) := by
        simp [firstPass, hg]
      refine ⟨?_, ?_, ?_⟩
      · rw [hfp]
        have hmap := hperm.map (fun pr => pr.2.path)
        simp only [List.map_cons] at hmap ⊢
        rw [List.cons_append]
        have : ({ f with name := e.title } : TreeNode).path = f.path := rfl
        rw [this]
        exact (List.Perm.cons f.path hr.1).trans hmap.symm
      · rw [hfp]
        exact hr.2.1.trans (objDelete_sublist m e.file)
      · rw [hfp]
        intro x hx
        rcases List.mem_cons.mp hx with hx | hx
        · obtain ⟨pr0, hpr0, hkey, hval⟩ := objGet_mem m e.file f hg
          exact ⟨e, by simp, pr0, hpr0, by rw [hx, hval], by simpa using hkey⟩
        · obtain ⟨e', he', pr, hpr, hx1, hx2⟩ := hr.2.2 x hx
          exact ⟨e', List.mem_cons_of_mem _ he', pr,
            (objDelete_sublist m e.file).mem hpr, hx1, hx2⟩

/-- Folding the `fileMap` construction from an accumulator whose keys do
not collide with the nodes: every insertion appends. -/
theorem buildFileMap_go (nodes : List TreeNode) : ∀ m0 : List (String × TreeNode),
    (∀ f ∈ nodes, f.ftype = "file") →
    (∀ f ∈ nodes, ∀ pr ∈ m0, pr.1 ≠ f.name) →
    (nodes.map TreeNode.name).Nodup →
    nodes.foldl (fun m f => if f.ftype == "file" then objSet m f.name f else m) m0 =
      m0 ++ nodes.map (fun f => (f.name, f)) := by
  induction nodes with
  | nil => intro m0 _ _ _; simp
  | cons f fs ih =>
    intro m0 hfile hdisj hnd
    rw [List.foldl_cons]
    have hft : (f.ftype == "file") = true := by
      simp [hfile f (by simp)]
    rw [if_pos hft]
    have hany : m0.any (fun pr => pr.1 == f.name) = false := by
      rw [List.any_eq_false]
      intro pr hpr
      simp [hdisj f (by simp) pr hpr]
    rw [show objSet m0 f.name f = m0 ++ [(f.name, f)] by
      unfold objSet; rw [hany]; simp]
    rw [List.map_cons, List.nodup_cons] at hnd
    rw [ih (m0 ++ [(f.name, f)]) (fun g hg => hfile g (List.mem_cons_of_mem _ hg))
      ?_ hnd.2]
    · simp
    · intro g hg pr hpr
      rcases List.mem_append.mp hpr with hpr | hpr
      · exact hdisj g (List.mem_cons_of_mem _ hg) pr hpr
      · have hpr2 : pr = (f.name, f) := by simpa using hpr
        rw [hpr2]
        intro hc
        have hmem : f.name ∈ fs.map TreeNode.name := by
          rw [show f.name = g.name from hc]
          exact List.mem_map_of_mem TreeNode.name hg
        exact hnd.1 hmem

/-- Under distinct names and file-typed nodes, `fileMap` is the plain
keyed listing of the nodes in order. -/
theorem buildFileMap_eq (nodes : List TreeNode)
    (hfile : ∀ f ∈ nodes, f.ftype = "file")
    (hnd : (nodes.map TreeNode.name).Nodup) :
    buildFileMap nodes = nodes.map (fun f => (f.name, f)) := by
  have := buildFileMap_go nodes [] hfile (by intro f _ pr hpr; cases hpr) hnd
  simpa [buildFileMap] using this

/-- Projecting the keyed listing back to its nodes. -/
theorem map_snd_pair (ns : List TreeNode) :
    List.map Prod.snd (ns.map (fun f => (f.name, f))) = ns := by
  induction ns with
  | nil => rfl
  | cons a l ihn => simp [ihn]

/-- **C3.** For every ordering configuration, the Chapter Resequencer
emits one node per canonical chapter node: the output has the canonical
set's length, its source paths are a duplicate-free permutation of the
canonical paths, and it splits into a configured part — copies of
canonical nodes with the display name replaced by the configured title,
one per matched configuration entry (entries naming unknown files are
ignored, a file is consumed at most once) — followed by the unconsumed
canonical nodes in their original relative order. -/
theorem reorderChapters_correct (nodes : List TreeNode) (cfg : List ChapterEntry)
    (hfile : ∀ f ∈ nodes, f.ftype = "file")
    (hname : (nodes.map TreeNode.name).Nodup)
    (hpath : (nodes.map TreeNode.path).Nodup) :
    (reorderChapters nodes cfg).length = nodes.length ∧
    ((reorderChapters nodes cfg).map TreeNode.path).Perm (nodes.map TreeNode.path) ∧
    ((reorderChapters nodes cfg).map TreeNode.path).Nodup ∧
    ∃ em rm, reorderChapters nodes cfg = em ++ rm ∧ rm.Sublist nodes ∧
      ∀ x ∈ em, ∃ e ∈ cfg, ∃ f ∈ nodes,
        x = { f with name := e.title } ∧ e.file = f.name := by
  have hmap := buildFileMap_eq nodes hfile hname
  have hkeys : ((buildFileMap nodes).map Prod.fst).Nodup := by
    rw [hmap]
    simpa [Function.comp] using hname
  obtain ⟨hperm, hsub, hem⟩ := firstPass_spec cfg (buildFileMap nodes) hkeys
  have hvals : ((buildFileMap nodes).map (fun pr => pr.2.path)) = nodes.map TreeNode.path := by
    rw [hmap]
    simp [Function.comp]
  have houtmap : (reorderChapters nodes cfg).map TreeNode.path =
      (firstPass cfg (buildFileMap nodes)).1.map TreeNode.path ++
        (firstPass cfg (buildFileMap nodes)).2.map (fun pr => pr.2.path) := by
    unfold reorderChapters
    simp [Function.comp]
  have hperm2 : ((reorderChapters nodes cfg).map TreeNode.path).Perm
      (nodes.map TreeNode.path) := by
    rw [houtmap, ← hvals]
    exact hperm
  refine ⟨?_, hperm2, hperm2.nodup_iff.mpr hpath, ?_⟩
  · have := hperm2.length_eq
    simpa using this
  · refine ⟨(firstPass cfg (buildFileMap nodes)).1,
      (firstPass cfg (buildFileMap nodes)).2.map Prod.snd, rfl, ?_, ?_⟩
    · rw [hmap]
      have hs := hsub.map Prod.snd
      rw [hmap] at hs
      rwa [map_snd_pair] at hs
    · intro x hx
      obtain ⟨e, he, pr, hpr, hx1, hx2⟩ := hem x hx
      rw [hmap] at hpr
      obtain ⟨f, hf, rfl⟩ := List.mem_map.mp hpr
      exact ⟨e, he, f, hf, hx1, hx2.symm⟩

/-- Witness for C3 at a concrete canonical set and configuration. -/
theorem reorderChapters_correct_witness :
    (reorderChapters c3Nodes c3Cfg).length = c3Nodes.length ∧
    ((reorderChapters c3Nodes c3Cfg).map TreeNode.path).Perm (c3Nodes.map TreeNode.path) ∧
    ((reorderChapters c3Nodes c3Cfg).map TreeNode.path).Nodup ∧
    ∃ em rm, reorderChapters c3Nodes c3Cfg = em ++ rm ∧ rm.Sublist c3Nodes ∧
      ∀ x ∈ em, ∃ e ∈ c3Cfg, ∃ f ∈ c3Nodes,
        x = { f with name := e.title } ∧ e.file = f.name :=
  reorderChapters_correct c3Nodes c3Cfg (by decide) (by decide) (by decide)

/-- **C10.** After a successful PDF build, the intermediate Stage A HTML
file remains on disk next to the PDF artifact: the PDF pipeline never
deletes it (the `fs.unlinkSync` call is commented out), so the output
directory holds both the HTML and the PDF. -/
theorem pdfBuild_keeps_html (env : BuildEnv) (h : (runBuildPdf env).1 = RunResult.success) :
    (runBuildPdf env).2.htmlWritten = true ∧ (runBuildPdf env).2.pdfWritten = true := by
  cases hill : env.illustrationsListing with
  | none => simp [runBuildPdf, hill] at h
  | some ill =>
    by_cases h2 : (stageRun env.chapterContent pdfRep chapterFiles).2 = true
    · by_cases h3 : env.pandocOk = true
      · by_cases h4 : env.wkOk = true
        · simp [runBuildPdf, hill, h2, h3, h4]
        · simp [runBuildPdf, hill, h2, h3, h4] at h
      · simp [runBuildPdf, hill, h2, h3] at h
    · simp [runBuildPdf, hill, h2] at h

/-- Witness for C10: a fully successful PDF build leaves both the HTML
and the PDF in the output directory. -/
theorem pdfBuild_keeps_html_witness :
    (runBuildPdf happyPdfEnv).2.htmlWritten = true ∧
    (runBuildPdf happyPdfEnv).2.pdfWritten = true :=
  pdfBuild_keeps_html happyPdfEnv (by decide)

/-- **C2 (code bug).** The claim says the Build Session removes the
StagingTree on every exit path, converter success or failure.  The code
disagrees on the failure path: the `catch` block calls `process.exit(1)`,
which terminates Node.js immediately, so the `finally` cleanup never runs
and `temp-chapters` / `temp-chapters-pdf` is left on disk.  This theorem
evaluates both scripts at a failing converter and exhibits the leftover
staging directory (the success path does tear it down). -/
theorem convFailure_leaves_stagingTree (env envP : BuildEnv)
    (hill : env.illustrationsListing ≠ none)
    (hstage : (stageRun env.chapterContent epubRep chapterFiles).2 = true)
    (hpan : env.pandocOk = false)
    (hillP : envP.illustrationsListing ≠ none)
    (hstageP : (stageRun envP.chapterContent pdfRep chapterFiles).2 = true)
    (hpanP : envP.pandocOk = true) (hwkP : envP.wkOk = false) :
    (runBuildEpub env).1 = RunResult.exited 1 ∧
    (runBuildEpub env).2.tempChaptersExists = true ∧
    (runBuildPdf envP).1 = RunResult.exited 1 ∧
    (runBuildPdf envP).2.tempChaptersExists = true := by
  cases hi : env.illustrationsListing with
  | none => exact absurd hi hill
  | some ill =>
    cases hiP : envP.illustrationsListing with
    | none => exact absurd hiP hillP
    | some illP =>
      refine ⟨?_, ?_, ?_, ?_⟩ <;>
        simp [runBuildEpub, runBuildPdf, hi, hiP, hstage, hpan, hstageP, hpanP, hwkP]

/-- Witness for C2: concrete failing-converter environments. -/
theorem convFailure_leaves_stagingTree_witness :
    (runBuildEpub panFailEnv).1 = RunResult.exited 1 ∧
    (runBuildEpub panFailEnv).2.tempChaptersExists = true ∧
    (runBuildPdf wkFailEnv).1 = RunResult.exited 1 ∧
    (runBuildPdf wkFailEnv).2.tempChaptersExists = true :=
  convFailure_leaves_stagingTree panFailEnv wkFailEnv (by decide) (by decide) (by decide)
    (by decide) (by decide) (by decide) (by decide)

/-- **C1 (counterexample).** The claim says that whatever stage fails, the
staging directory does not exist after the invocation.  Counterexample: a
chapter StagingFailure (all chapter reads throw, here with a readable
illustrations directory) aborts the EPUB build before any converter
invocation — but `build/temp-chapters` was created just before the
chapter loop and no cleanup runs on this uncaught exception, so it still
exists afterwards. -/
theorem stagingTeardown_cex :
    (runBuildEpub c1CexEnv).1 = RunResult.uncaught ∧
    (runBuildEpub c1CexEnv).2.tempChaptersExists = true := by decide

/-- **C1 (amended).** For both scripts, the staging directory is absent
after the invocation iff either asset staging failed (the illustrations
directory is unreadable — this aborts before the staging directory is
created) or the whole build succeeded (chapter staging and every
converter).  A chapter StagingFailure aborts before any converter
invocation but leaves the staging directory, and a converter failure
leaves it too because `process.exit(1)` pre-empts the `finally`. -/
theorem stagingTeardown_amended (env : BuildEnv) :
    ((runBuildEpub env).2.tempChaptersExists = false ↔
      env.illustrationsListing = none ∨
        ((∀ f ∈ chapterFiles, (env.chapterContent f).isSome = true) ∧
          env.pandocOk = true)) ∧
    ((runBuildPdf env).2.tempChaptersExists = false ↔
      env.illustrationsListing = none ∨
        ((∀ f ∈ chapterFiles, (env.chapterContent f).isSome = true) ∧
          env.pandocOk = true ∧ env.wkOk = true)) := by
  constructor
  · cases hi : env.illustrationsListing with
    | none => simp [runBuildEpub, hi]
    | some ill =>
      rw [← stageRun_flag env.chapterContent epubRep chapterFiles]
      by_cases h2 : (stageRun env.chapterContent epubRep chapterFiles).2 = true
      · by_cases h3 : env.pandocOk = true <;> simp [runBuildEpub, hi, h2, h3]
      · simp [runBuildEpub, hi, h2]
  · cases hi : env.illustrationsListing with
    | none => simp [runBuildPdf, hi]
    | some ill =>
      rw [← stageRun_flag env.chapterContent pdfRep chapterFiles]
      by_cases h2 : (stageRun env.chapterContent pdfRep chapterFiles).2 = true
      · by_cases h3 : env.pandocOk = true
        · by_cases h4 : env.wkOk = true <;> simp [runBuildPdf, hi, h2, h3, h4]
        · simp [runBuildPdf, hi, h2, h3]
      · simp [runBuildPdf, hi, h2]

/-- No pattern occurrence survives in the rewritten join, provided no
segment hides a straddling context (generic in the replacement `rep`;
`seed` is the unique text that straddles into `rep`). -/
theorem countOcc_upat_out (rep seed : List Char)
    (hcnt : ∀ X, countOcc upat (rep ++ X) = countOcc upat X)
    (hspan : ∀ u X, u ≠ [] → u.length < 17 →
      List.isPrefixOf upat (u ++ (rep ++ X)) = true → u = seed) :
    ∀ segs : List (List Char), (∀ g ∈ segs, hasMatch upat g = false) →
      hasMatch (seed ++ upat) (joinWith upat segs) = false →
      countOcc upat (joinWith rep segs) = 0 := by
  intro segs
  induction segs with
  | nil => intro _ _; rfl
  | cons g rest ih =>
    intro hfree hbad
    cases rest with
    | nil =>
      show countOcc upat (g ++ joinTail rep []) = 0
      rw [show joinTail rep ([] : List (List Char)) = [] from rfl, List.append_nil]
      exact countOcc_zero_of_not_hasMatch _ _ (hfree g (by simp))
    | cons h t =>
      have hne : (h :: t : List (List Char)) ≠ [] := by simp
      have hjoin : joinWith rep (g :: h :: t) = g ++ (rep ++ joinWith rep (h :: t)) := by
        show g ++ joinTail rep (h :: t) = g ++ (rep ++ joinWith rep (h :: t))
        rw [joinTail_eq rep _ hne]
      have hjoinP : joinWith upat (g :: h :: t) = g ++ (upat ++ joinWith upat (h :: t)) := by
        show g ++ joinTail upat (h :: t) = g ++ (upat ++ joinWith upat (h :: t))
        rw [joinTail_eq upat _ hne]
      rw [hjoin]
      have hnone : ∀ j, j < g.length →
          List.isPrefixOf upat (g.drop j ++ (rep ++ joinWith rep (h :: t))) = false := by
        intro j hj
        cases hpre : List.isPrefixOf upat (g.drop j ++ (rep ++ joinWith rep (h :: t))) with
        | false => rfl
        | true =>
          exfalso
          have hu : g.drop j ≠ [] := by
            intro hc
            have := congrArg List.length hc
            simp at this
            omega
          by_cases hlen : upat.length ≤ (g.drop j).length
          · have hin := prefixOf_long _ _ _ hpre hlen
            have := hasMatch_of_drop_prefixOf upat g j hin
            rw [hfree g (by simp)] at this
            cases this
          · have hseed := hspan _ _ hu (by simp [upat] at hlen ⊢; omega) hpre
            have hsplit : g = g.take j ++ seed := by rw [← hseed, List.take_append_drop]
            have hocc : hasMatch (seed ++ upat) (joinWith upat (g :: h :: t)) = true := by
              rw [hjoinP, hsplit]
              rw [List.append_assoc, ← List.append_assoc seed upat _]
              exact hasMatch_append_right _ _ _
                (hasMatch_of_prefixOf _ _ (prefixOf_self_append (seed ++ upat) _))
            rw [hbad] at hocc
            cases hocc
      rw [countOcc_append_of_none upat g _ hnone, hcnt]
      refine ih (fun g' hg' => hfree g' (List.mem_cons_of_mem _ hg')) ?_
      cases hb2 : hasMatch (seed ++ upat) (joinWith upat (h :: t)) with
      | false => rfl
      | true =>
        exfalso
        have : hasMatch (seed ++ upat) (joinWith upat (g :: h :: t)) = true := by
          rw [hjoinP]
          exact hasMatch_append_right _ _ _ (hasMatch_append_right _ _ _ hb2)
        rw [hbad] at this
        cases this

/-- The number of pattern occurrences in the join of match-free segments
by the pattern itself: one per separator. -/
theorem countOcc_upat_in (g : List Char) (rest : List (List Char))
    (hfree : ∀ g' ∈ g :: rest, hasMatch upat g' = false) :
    countOcc upat (joinWith upat (g :: rest)) = rest.length := by
  induction rest generalizing g with
  | nil =>
    show countOcc upat (g ++ joinTail upat []) = 0
    rw [show joinTail upat ([] : List (List Char)) = [] from rfl, List.append_nil]
    exact countOcc_zero_of_not_hasMatch _ _ (hfree g (by simp))
  | cons h t ih =>
    have hne : (h :: t : List (List Char)) ≠ [] := by simp
    have hjoin : joinWith upat (g :: h :: t) = g ++ (upat ++ joinWith upat (h :: t)) := by
      show g ++ joinTail upat (h :: t) = g ++ (upat ++ joinWith upat (h :: t))
      rw [joinTail_eq upat _ hne]
    rw [hjoin]
    have hb := boundary_eq_of_span upat g (upat ++ joinWith upat (h :: t))
      (fun u hne' hlt hpre => span_upat_upat u _ hne' (by simpa [upat] using hlt) hpre)
    rw [countOcc_append_of_boundary upat g _ hb,
      countOcc_zero_of_not_hasMatch _ _ (hfree g (by simp)),
      cnt_upat_upat, ih h (fun g' hg' => hfree g' (List.mem_cons_of_mem _ hg'))]
    simp [List.length_cons]
    omega

/-- The number of replacement-text occurrences in the pattern-join of
match-free segments: one per separator plus whatever the segments
themselves contain (generic in the replacement). -/
theorem countOcc_rep_in (rep : List Char)
    (hcntP : ∀ Y, countOcc rep (upat ++ Y) = 1 + countOcc rep Y)
    (hspan : ∀ u Y, u ≠ [] → u.length < rep.length →
      List.isPrefixOf rep (u ++ (upat ++ Y)) = true → False) :
    ∀ (g : List Char) (rest : List (List Char)),
      countOcc rep (joinWith upat (g :: rest)) = rest.length + sumCnt rep (g :: rest) := by
  intro g rest
  induction rest generalizing g with
  | nil =>
    show countOcc rep (g ++ joinTail upat []) = 0 + sumCnt rep [g]
    rw [show joinTail upat ([] : List (List Char)) = [] from rfl, List.append_nil]
    simp [sumCnt]
  | cons h t ih =>
    have hne : (h :: t : List (List Char)) ≠ [] := by simp
    have hjoin : joinWith upat (g :: h :: t) = g ++ (upat ++ joinWith upat (h :: t)) := by
      show g ++ joinTail upat (h :: t) = g ++ (upat ++ joinWith upat (h :: t))
      rw [joinTail_eq upat _ hne]
    rw [hjoin]
    have hb := boundary_eq_of_span rep g (upat ++ joinWith upat (h :: t))
      (fun u hne' hlt hpre => hspan u _ hne' hlt hpre)
    rw [countOcc_append_of_boundary rep g _ hb, hcntP, ih h]
    simp [sumCnt, List.length_cons]
    omega

/-- The number of replacement-text occurrences in the replacement-join of
replacement-free segments: exactly one per separator (generic). -/
theorem countOcc_rep_out (rep : List Char)
    (hcntR : ∀ X, countOcc rep (rep ++ X) = 1 + countOcc rep X)
    (hspan : ∀ u X, u ≠ [] → u.length < rep.length →
      List.isPrefixOf rep (u ++ (rep ++ X)) = true → False) :
    ∀ (g : List Char) (rest : List (List Char)),
      (∀ g' ∈ g :: rest, countOcc rep g' = 0) →
      countOcc rep (joinWith rep (g :: rest)) = rest.length := by
  intro g rest
  induction rest generalizing g with
  | nil =>
    intro hz
    show countOcc rep (g ++ joinTail rep []) = 0
    rw [show joinTail rep ([] : List (List Char)) = [] from rfl, List.append_nil]
    exact hz g (by simp)
  | cons h t ih =>
    intro hz
    have hne : (h :: t : List (List Char)) ≠ [] := by simp
    have hjoin : joinWith rep (g :: h :: t) = g ++ (rep ++ joinWith rep (h :: t)) := by
      show g ++ joinTail rep (h :: t) = g ++ (rep ++ joinWith rep (h :: t))
      rw [joinTail_eq rep _ hne]
    rw [hjoin]
    have hb := boundary_eq_of_span rep g (rep ++ joinWith rep (h :: t))
      (fun u hne' hlt hpre => hspan u _ hne' hlt hpre)
    rw [countOcc_append_of_boundary rep g _ hb, hcntR,
      ih h (fun g' hg' => hz g' (List.mem_cons_of_mem _ hg')),
      hz g (by simp)]
    simp [List.length_cons]
    omega

/-- A first-occurrence replacement with no occurrence at all is the
identity. -/
theorem replaceFirst_id (p r s : List Char) (h : hasMatch p s = false) :
    replaceFirst p r s = s := by
  induction s with
  | nil => rfl
  | cons c t ih =>
    simp only [hasMatch, Bool.or_eq_false_iff] at h
    simp [replaceFirst, h.1, ih h.2]

/-- Step 1 changes nothing when the namespace is already declared or no
`<svg` occurs. -/
theorem nsStep_id (s : List Char)
    (h : hasMatch xmlnsNeedle s = true ∨ hasMatch svgTag s = false) : nsStep s = s := by
  unfold nsStep
  rcases h with h | h
  · rw [if_pos h]
  · split
    · rfl
    · exact replaceFirst_id _ _ _ h

/-- Step 2 changes nothing when no `<?xml` occurs. -/
theorem stripXmlDecls_id (s : List Char) (h : hasMatch xmlOpen s = false) :
    stripXmlDecls s = s := by
  apply genScan_id
  intro j
  show (if List.isPrefixOf xmlOpen (s.drop j) then _ else none) = none
  rw [if_neg]
  rw [no_occ_of_not_hasMatch xmlOpen s h j]
  simp

/-- The dimension-injection scan finds nothing when no `<svg` occurs. -/
theorem svgInjectGo_none (s : List Char) (h : hasMatch svgTag s = false) :
    ∀ acc, svgInjectGo acc s = none := by
  induction s with
  | nil => intro acc; rfl
  | cons c t ih =>
    intro acc
    simp only [hasMatch, Bool.or_eq_false_iff] at h
    simp [svgInjectGo, h.1, ih h.2]

/-- Step 3 changes nothing when explicit numeric dimensions are present,
or when no `<svg` occurs. -/
theorem dimStep_id (s : List Char)
    (h : (hasDimDigits widthKey s = true ∧ hasDimDigits heightKey s = true) ∨
      hasMatch svgTag s = false) : dimStep s = s := by
  unfold dimStep
  rcases h with ⟨h1, h2⟩ | h
  · rw [if_neg]
    simp [h1, h2]
  · split
    · unfold replaceSvgTag
      rw [svgInjectGo_none s h []]
    · rfl

/-- Step 4 changes nothing when no `opacity` substring occurs (the
`includes` guard). -/
theorem opacityStep_id (s : List Char) (h : hasMatch opacityLit s = false) :
    opacityStep s = s := by
  unfold opacityStep
  rw [if_neg]
  simp [h]

/-- Step 5 changes nothing when no `<style` occurs. -/
theorem styleStep_id (s : List Char) (h : hasMatch styleOpen s = false) :
    styleStep s = s := by
  apply genScan_id
  intro j
  show (if List.isPrefixOf styleOpen (s.drop j) then _ else none) = none
  rw [if_neg]
  rw [no_occ_of_not_hasMatch styleOpen s h j]
  simp

/-- A sanitizer fixed point: content already carrying the namespace (or no
`<svg` at all), with no XML prolog, no `opacity` substring, no `<style`,
and explicit numeric dimensions (or no `<svg`), is returned unchanged. -/
theorem optimizeSvg_fix (s : List Char)
    (h1 : hasMatch xmlnsNeedle s = true ∨ hasMatch svgTag s = false)
    (h2 : hasMatch xmlOpen s = false)
    (h3 : hasMatch opacityLit s = false)
    (h4 : hasMatch styleOpen s = false)
    (h5 : (hasDimDigits widthKey s = true ∧ hasDimDigits heightKey s = true) ∨
      hasMatch svgTag s = false) :
    optimizeSvgForEpub s = s := by
  unfold optimizeSvgForEpub
  rw [nsStep_id s h1, stripXmlDecls_id s h2, dimStep_id s h5, opacityStep_id s h3,
    styleStep_id s h4]

/-- **C5 (counterexample).** Sanitizing is not idempotent: on
`opopacity="x"acity="y"`, the first pass deletes the inner attribute and
splices a fresh `opacity="y"` attribute together, which the second pass
deletes, so the second output differs from the first. -/
theorem svgSanitizer_idem_cex :
    optimizeSvgForEpub (optimizeSvgForEpub c5CexInput) ≠ optimizeSvgForEpub c5CexInput := by
  decide

/-- **C5 (amended).** Applying the sanitizer twice yields the output of
applying it once whenever that first output is stable: it declares the
SVG namespace (or has no `<svg>`), contains no XML prolog opener, no
`opacity` substring, no `<style` opener, and carries explicit numeric
width and height (or has no `<svg>`).  Each sanitizer step is then the
identity on it.  (Pathological splicing inputs such as the counterexample
violate the no-`opacity` condition.) -/
theorem svgSanitizer_idem_amended (s : List Char)
    (h1 : hasMatch xmlnsNeedle (optimizeSvgForEpub s) = true ∨
      hasMatch svgTag (optimizeSvgForEpub s) = false)
    (h2 : hasMatch xmlOpen (optimizeSvgForEpub s) = false)
    (h3 : hasMatch opacityLit (optimizeSvgForEpub s) = false)
    (h4 : hasMatch styleOpen (optimizeSvgForEpub s) = false)
    (h5 : (hasDimDigits widthKey (optimizeSvgForEpub s) = true ∧
        hasDimDigits heightKey (optimizeSvgForEpub s) = true) ∨
      hasMatch svgTag (optimizeSvgForEpub s) = false) :
    optimizeSvgForEpub (optimizeSvgForEpub s) = optimizeSvgForEpub s :=
  optimizeSvg_fix (optimizeSvgForEpub s) h1 h2 h3 h4 h5

/-- Witness for the amended C5: a plain SVG with an opacity attribute
sanitizes to a stable output, so a second pass changes nothing. -/
theorem svgSanitizer_idem_amended_witness :
    optimizeSvgForEpub (optimizeSvgForEpub c5WitInput) = optimizeSvgForEpub c5WitInput :=
  svgSanitizer_idem_amended c5WitInput (by decide) (by decide) (by decide) (by decide)
    (by decide)

/-- **C7 (counterexample).** An input with no `<svg>` root is not passed
through unchanged: `opacity="0"` has no `<svg>` root, yet the sanitizer's
opacity step (which never checks for a root element) deletes the
attribute. -/
theorem malformedPassthrough_cex :
    hasMatch svgTag c7CexInput = false ∧ optimizeSvgForEpub c7CexInput ≠ c7CexInput := by
  decide

/-- **C7 (amended).** An input with no `<svg>` root escapes the namespace
and dimension injections, and it is passed through unchanged provided it
also contains no XML prolog opener, no `opacity` substring and no
`<style` opener; the sanitizer is a total function, so it never raises. -/
theorem malformedPassthrough_amended (s : List Char)
    (hsvg : hasMatch svgTag s = false) (hxml : hasMatch xmlOpen s = false)
    (hop : hasMatch opacityLit s = false) (hsty : hasMatch styleOpen s = false) :
    optimizeSvgForEpub s = s :=
  optimizeSvg_fix s (Or.inr hsvg) hxml hop hsty (Or.inr hsvg)

/-- Witness for the amended C7 on plain text. -/
theorem malformedPassthrough_amended_witness :
    optimizeSvgForEpub c7WitInput = c7WitInput :=
  malformedPassthrough_amended c7WitInput (by decide) (by decide) (by decide) (by decide)

/-- The Boolean whitespace test is membership in `wsChars`. -/
theorem isJsWs_iff_mem (c : Char) : isJsWs c = true ↔ c ∈ wsChars := by
  constructor
  · intro h
    simp only [isJsWs, Bool.or_eq_true, beq_iff_eq] at h
    simp only [wsChars, List.mem_cons, List.not_mem_nil, or_false]
    rcases h with ((((((h | h) | h) | h) | h) | h) | h) <;> subst h <;> simp
  · intro h
    simp only [wsChars, List.mem_cons, List.not_mem_nil, or_false] at h
    rcases h with h | h | h | h | h | h | h <;> subst h <;> decide

/-- A `takeWhile` over an all-satisfying block stops exactly at the first
failing character. -/
theorem takeWhile_exact (q : Char → Bool) (v : List Char) (d : Char) (rest : List Char)
    (hv : ∀ c ∈ v, q c = true) (hd : q d = false) :
    (v ++ d :: rest).takeWhile q = v := by
  induction v with
  | nil => simp [List.takeWhile_cons, hd]
  | cons a t ih =>
    have ha := hv a (by simp)
    simp [List.takeWhile_cons, ha, ih (fun c hc => hv c (List.mem_cons_of_mem _ hc))]

/-- A successful attribute-tail parse consumed the `=`, both quotes and
the value. -/
theorem parseOpacityAssign_length (x y : List Char) (h : parseOpacityAssign x = some y) :
    y.length + 3 ≤ x.length := by
  have hdw : (x.dropWhile isJsWs).length ≤ x.length :=
    List.Sublist.length_le (List.dropWhile_sublist isJsWs)
  unfold parseOpacityAssign at h
  split at h
  · rename_i t2 heq1
    have hdw2 : (t2.dropWhile isJsWs).length ≤ t2.length :=
      List.Sublist.length_le (List.dropWhile_sublist isJsWs)
    split at h
    · rename_i t4 heq2
      dsimp only at h
      split at h
      · rename_i t5 heq3
        cases h
        have e1 := congrArg List.length heq1
        have e2 := congrArg List.length heq2
        have e3 := congrArg List.length heq3
        simp [List.length_drop] at e1 e2 e3
        omega
      · cases h
    · cases h
  · cases h

/-- Parsing `="v"` followed by anything, for quote-free `v`, returns the
text after the closing quote. -/
theorem parseOpacityAssign_concrete (v post : List Char)
    (hv : ∀ c ∈ v, (c == '"') = false) :
    parseOpacityAssign (('=' :: '"' :: (v ++ ['"'])) ++ post) = some post := by
  have htw : (v ++ '"' :: post).takeWhile (fun ch => !(ch == '"')) = v :=
    takeWhile_exact _ v '"' post (fun c hc => by simp [hv c hc]) (by decide)
  have hs : ('=' :: '"' :: (v ++ ['"'])) ++ post = '=' :: '"' :: (v ++ ('"' :: post)) := by
    simp
  rw [hs]
  simp [parseOpacityAssign, List.dropWhile_cons, isJsWs, htw, List.drop_left]

/-- A successful `\s+opacity…` head match decomposes the input into a
nonempty whitespace run followed by an `opacity`-led tail. -/
theorem wsOp_struct (s : List Char) (pr : List Char × List Char)
    (h : wsOpacityScanner.parse s = some pr) :
    ∃ ws tl, s = ws ++ tl ∧ ws ≠ [] ∧ (∀ c ∈ ws, isJsWs c = true) ∧
      List.isPrefixOf opacityLit tl = true := by
  cases s with
  | nil => exact absurd h (by simp [wsOpacityScanner])
  | cons c r =>
    dsimp only [wsOpacityScanner] at h
    by_cases hw : isJsWs c = true
    · rw [if_pos hw] at h
      by_cases hp : List.isPrefixOf opacityLit ((c :: r).dropWhile isJsWs) = true
      · refine ⟨(c :: r).takeWhile isJsWs, (c :: r).dropWhile isJsWs,
          (List.takeWhile_append_dropWhile isJsWs (c :: r)).symm, ?_, ?_, hp⟩
        · rw [List.takeWhile_cons_of_pos hw]
          simp
        · intro x hx
          exact List.mem_takeWhile_imp hx
      · rw [if_neg hp] at h
        cases h
    · rw [if_neg hw] at h
      cases h

/-- A `\s+opacity…` head match implies an `opacity` occurrence. -/
theorem wsOp_hasMatch (s : List Char) (pr : List Char × List Char)
    (h : wsOpacityScanner.parse s = some pr) : hasMatch opacityLit s = true := by
  obtain ⟨ws, tl, rfl, _, _, hp⟩ := wsOp_struct s pr h
  exact hasMatch_append_right _ _ _ (hasMatch_of_prefixOf _ _ hp)

/-- An `opacity…` head match in the no-whitespace scanner implies an
`opacity` occurrence. -/
theorem opScan_hasMatch (s : List Char) (pr : List Char × List Char)
    (h : opacityScanner.parse s = some pr) : hasMatch opacityLit s = true := by
  dsimp only [opacityScanner] at h
  by_cases hp : List.isPrefixOf opacityLit s = true
  · exact hasMatch_of_prefixOf _ _ hp
  · rw [if_neg hp] at h
    cases h

/-- The whitespace-led opacity scanner consumes on a match. -/
theorem wsOp_consumes : ∀ s e r, wsOpacityScanner.parse s = some (e, r) →
    r.length < s.length := by
  intro s e r h
  cases s with
  | nil => exact absurd h (by simp [wsOpacityScanner])
  | cons c rs =>
    dsimp only [wsOpacityScanner] at h
    by_cases hw : isJsWs c = true
    · rw [if_pos hw] at h
      by_cases hp : List.isPrefixOf opacityLit ((c :: rs).dropWhile isJsWs) = true
      · rw [if_pos hp] at h
        cases hpa : parseOpacityAssign (((c :: rs).dropWhile isJsWs).drop 7) with
        | none => rw [hpa] at h; cases h
        | some y =>
          rw [hpa] at h
          cases h
          have hlen := parseOpacityAssign_length _ _ hpa
          have h7 : 7 ≤ ((c :: rs).dropWhile isJsWs).length := by
            have := prefixOf_length _ _ hp
            simpa [opacityLit] using this
          have hdl : ((c :: rs).dropWhile isJsWs).length ≤ (c :: rs).length :=
            (List.dropWhile_sublist isJsWs).length_le
          simp [List.length_drop] at hlen hdl ⊢
          omega
      · rw [if_neg hp] at h
        cases h
    · rw [if_neg hw] at h
      cases h

/-- Dropping a leading character that fails the predicate is a no-op. -/
theorem dropWhile_cons_neg (p : Char → Bool) (c : Char) (l : List Char) (h : p c = false) :
    (c :: l).dropWhile p = c :: l := by
  simp [List.dropWhile_cons, h]

/-- Dropping continues past a leading character satisfying the predicate. -/
theorem dropWhile_cons_pos (p : Char → Bool) (c : Char) (l : List Char) (h : p c = true) :
    (c :: l).dropWhile p = l.dropWhile p := by
  simp [List.dropWhile_cons, h]

/-- The whitespace-led scanner never fires on a non-whitespace head. -/
theorem wsOp_parse_cons_neg (c : Char) (r : List Char) (h : isJsWs c = false) :
    wsOpacityScanner.parse (c :: r) = none := by
  dsimp only [wsOpacityScanner]
  rw [h]
  simp

/-- The bare opacity scanner never fires without an `opacity` front. -/
theorem opScan_parse_neg (s : List Char) (h : List.isPrefixOf opacityLit s = false) :
    opacityScanner.parse s = none := by
  dsimp only [opacityScanner]
  rw [h]
  simp

/-- The bare opacity scanner consumes on a match. -/
theorem opScan_consumes : ∀ s e r, opacityScanner.parse s = some (e, r) →
    r.length < s.length := by
  intro s e r h
  dsimp only [opacityScanner] at h
  by_cases hp : List.isPrefixOf opacityLit s = true
  · rw [if_pos hp] at h
    cases hpa : parseOpacityAssign (s.drop 7) with
    | none => rw [hpa] at h; cases h
    | some y =>
      rw [hpa] at h
      cases h
      have hlen := parseOpacityAssign_length _ _ hpa
      have h7 : 7 ≤ s.length := by
        have := prefixOf_length _ _ hp
        simpa [opacityLit] using this
      simp [List.length_drop] at hlen ⊢
      omega
  · rw [if_neg hp] at h
    cases h

/-- The whitespace-led scanner's match at a space-led well-formed
attribute: it consumes the space and the whole `opacity="v"`. -/
theorem wsOp_parse_at_attr (v post : List Char)
    (hv : ∀ c ∈ v, (c == '"') = false) :
    wsOpacityScanner.parse ((' ' :: opAttr v) ++ post) = some ([], post) := by
  have hshape : (' ' :: opAttr v) ++ post = ' ' :: (opAttr v ++ post) := rfl
  rw [hshape]
  have hX : opAttr v ++ post =
      'o' :: (['p', 'a', 'c', 'i', 't', 'y'] ++ (('=' :: '"' :: (v ++ ['"'])) ++ post)) := by
    simp [opAttr, opacityLit]
  dsimp only [wsOpacityScanner]
  rw [if_pos (by decide : isJsWs ' ' = true)]
  rw [dropWhile_cons_pos isJsWs ' ' _ (by decide)]
  rw [hX, dropWhile_cons_neg isJsWs 'o' _ (by decide), ← hX]
  have hpre : List.isPrefixOf opacityLit (opAttr v ++ post) = true := by
    show List.isPrefixOf opacityLit
      ((opacityLit ++ ('=' :: '"' :: (v ++ ['"']))) ++ post) = true
    rw [List.append_assoc]
    exact prefixOf_self_append _ _
  rw [if_pos hpre]
  have hdrop : (opAttr v ++ post).drop 7 = ('=' :: '"' :: (v ++ ['"'])) ++ post := by
    rw [hX]
    rfl
  rw [hdrop, parseOpacityAssign_concrete v post hv]
  rfl

/-- The opacity step removes a space-led well-formed opacity attribute
and nothing else, when the rest of the text is whitespace-free before the
attribute and carries no other `opacity` occurrence. -/
theorem opacityStep_removes_attr (pre v post : List Char)
    (hpws : ∀ c ∈ pre, isJsWs c = false)
    (hno : hasMatch opacityLit (pre ++ post) = false)
    (hv : ∀ c ∈ v, (c == '"') = false) :
    opacityStep (pre ++ ((' ' :: opAttr v) ++ post)) = pre ++ post := by
  have hnpre : hasMatch opacityLit pre = false := by
    cases hc : hasMatch opacityLit pre with
    | false => rfl
    | true => rw [hasMatch_append_left _ _ post hc] at hno; cases hno
  have hnpost : hasMatch opacityLit post = false := by
    cases hc : hasMatch opacityLit post with
    | false => rfl
    | true => rw [hasMatch_append_right _ pre _ hc] at hno; cases hno
  have hinc : hasMatch opacityLit (pre ++ ((' ' :: opAttr v) ++ post)) = true := by
    apply hasMatch_append_right
    apply hasMatch_tail
    apply hasMatch_of_prefixOf
    show List.isPrefixOf opacityLit
      ((opacityLit ++ ('=' :: '"' :: (v ++ ['"']))) ++ post) = true
    rw [List.append_assoc]
    exact prefixOf_self_append _ _
  unfold opacityStep
  rw [if_pos hinc]
  have hscan1 : genScan wsOpacityScanner (pre ++ ((' ' :: opAttr v) ++ post)) =
      pre ++ post := by
    rw [genScan_append _ pre _ ?hpre]
    case hpre =>
      intro j hj
      rw [List.drop_eq_getElem_cons hj, List.cons_append]
      exact wsOp_parse_cons_neg _ _ (hpws _ (List.getElem_mem hj))
    rw [genScan_some _ wsOp_consumes _ _ _ (wsOp_parse_at_attr v post hv)]
    rw [genScan_id _ post ?hpost]
    case hpost =>
      intro j
      cases hp : wsOpacityScanner.parse (post.drop j) with
      | none => rfl
      | some pr =>
        exfalso
        have := hasMatch_drop _ _ _ (wsOp_hasMatch _ pr hp)
        rw [hnpost] at this
        cases this
    rfl
  rw [hscan1]
  apply genScan_id
  intro j
  cases hp : opacityScanner.parse ((pre ++ post).drop j) with
  | none => rfl
  | some pr =>
    exfalso
    have := hasMatch_drop _ _ _ (opScan_hasMatch _ pr hp)
    rw [hno] at this
    cases this

/-- Inside `fill-opacity="0.5"` the word `opacity` begins only at
offset 5, whatever text follows the attribute. -/
theorem fillAttr_occ (n : Nat) (X : List Char) (hn : n < 18) (hne : n ≠ 5) :
    List.isPrefixOf opacityLit (fillAttr.drop n ++ X) = false := by
  interval_cases n
  all_goals first
    | (exact absurd rfl hne)
    | (simp [fillAttr, opAttr, opacityLit, List.isPrefixOf])

/-- Inside `stroke-opacity="0.7"` the word `opacity` begins only at
offset 7, whatever text follows the attribute. -/
theorem strokeAttr_occ (n : Nat) (X : List Char) (hn : n < 20) (hne : n ≠ 7) :
    List.isPrefixOf opacityLit (strokeAttr.drop n ++ X) = false := by
  interval_cases n
  all_goals first
    | (exact absurd rfl hne)
    | (simp [strokeAttr, opAttr, opacityLit, List.isPrefixOf])

/-- No occurrence of `opacity` can straddle the junction between
preceding text and `fill-opacity="0.5"`. -/
theorem fillAttr_span (u X : List Char) (hne : u ≠ []) (hlt : u.length < 7) :
    List.isPrefixOf opacityLit (u ++ (fillAttr ++ X)) = false := by
  cases h : List.isPrefixOf opacityLit (u ++ (fillAttr ++ X)) with
  | false => rfl
  | true =>
    exfalso
    have hpos : 0 < u.length := List.length_pos.mpr hne
    obtain ⟨h1, h2⟩ :=
      prefixOf_split opacityLit u (fillAttr ++ X) h (by simpa [opacityLit] using hlt)
    set n := u.length with hn
    interval_cases n
    all_goals simp [opacityLit, fillAttr, opAttr, List.isPrefixOf] at h2

/-- No occurrence of `opacity` can straddle the junction between
preceding text and `stroke-opacity="0.7"`. -/
theorem strokeAttr_span (u X : List Char) (hne : u ≠ []) (hlt : u.length < 7) :
    List.isPrefixOf opacityLit (u ++ (strokeAttr ++ X)) = false := by
  cases h : List.isPrefixOf opacityLit (u ++ (strokeAttr ++ X)) with
  | false => rfl
  | true =>
    exfalso
    have hpos : 0 < u.length := List.length_pos.mpr hne
    obtain ⟨h1, h2⟩ :=
      prefixOf_split opacityLit u (strokeAttr ++ X) h (by simpa [opacityLit] using hlt)
    set n := u.length with hn
    interval_cases n
    all_goals simp [opacityLit, strokeAttr, opAttr, List.isPrefixOf] at h2

/-- The opacity step on a hyphen-prefixed opacity attribute
`hyph ++ opacity ++ tail` (such as `fill-opacity="0.5"`): no occurrence of
`opacity` in the text is preceded by whitespace, so the first regex never
fires; the second regex removes exactly the `opacity` word and its value
tail, leaving the dangling `hyph` in place. -/
theorem opacityStep_dangles (pre hyph opTail post : List Char)
    (htail : ∀ X, parseOpacityAssign (opTail ++ X) = some X)
    (hocc : ∀ n X, n < (hyph ++ (opacityLit ++ opTail)).length → n ≠ hyph.length →
      List.isPrefixOf opacityLit ((hyph ++ (opacityLit ++ opTail)).drop n ++ X) = false)
    (hspan : ∀ u X, u ≠ [] → u.length < 7 →
      List.isPrefixOf opacityLit (u ++ ((hyph ++ (opacityLit ++ opTail)) ++ X)) = false)
    (hpre : hasMatch opacityLit pre = false)
    (hpost : hasMatch opacityLit post = false)
    (hws2 : ∀ c ∈ wsChars,
      hasMatch (c :: opacityLit)
        (pre ++ ((hyph ++ (opacityLit ++ opTail)) ++ post)) = false) :
    opacityStep (pre ++ ((hyph ++ (opacityLit ++ opTail)) ++ post)) =
      pre ++ (hyph ++ post) := by
  have hinc : hasMatch opacityLit (pre ++ ((hyph ++ (opacityLit ++ opTail)) ++ post)) = true := by
    apply hasMatch_append_right
    have hsh : (hyph ++ (opacityLit ++ opTail)) ++ post =
        hyph ++ ((opacityLit ++ opTail) ++ post) := by simp
    rw [hsh]
    apply hasMatch_append_right
    apply hasMatch_of_prefixOf
    rw [List.append_assoc]
    exact prefixOf_self_append _ _
  unfold opacityStep
  rw [if_pos hinc]
  have hscan1 : genScan wsOpacityScanner
      (pre ++ ((hyph ++ (opacityLit ++ opTail)) ++ post)) =
      pre ++ ((hyph ++ (opacityLit ++ opTail)) ++ post) := by
    apply genScan_id
    intro j
    cases hp : wsOpacityScanner.parse
        ((pre ++ ((hyph ++ (opacityLit ++ opTail)) ++ post)).drop j) with
    | none => rfl
    | some pr =>
      exfalso
      obtain ⟨ws, tl, heq, hne, hallws, hpfx⟩ := wsOp_struct _ pr hp
      rcases List.eq_nil_or_concat ws with h' | ⟨ws', cl, hws'⟩
      · exact hne h'
      · rw [List.concat_eq_append] at hws'
        have hclws : isJsWs cl = true := hallws cl (by rw [hws']; simp)
        have hocc2 : hasMatch (cl :: opacityLit)
            ((pre ++ ((hyph ++ (opacityLit ++ opTail)) ++ post)).drop j) = true := by
          rw [heq, hws', List.append_assoc]
          apply hasMatch_append_right
          apply hasMatch_of_prefixOf
          show List.isPrefixOf (cl :: opacityLit) (cl :: tl) = true
          simp [List.isPrefixOf, hpfx]
        have hm := hasMatch_drop _ _ _ hocc2
        rw [hws2 cl ((isJsWs_iff_mem cl).mp hclws)] at hm
        cases hm
  rw [hscan1]
  have hshape : pre ++ ((hyph ++ (opacityLit ++ opTail)) ++ post) =
      (pre ++ hyph) ++ (opacityLit ++ (opTail ++ post)) := by simp
  rw [hshape]
  rw [genScan_append _ (pre ++ hyph) _ ?hguard]
  case hguard =>
    intro j hj
    apply opScan_parse_neg
    cases hres : List.isPrefixOf opacityLit
        ((pre ++ hyph).drop j ++ (opacityLit ++ (opTail ++ post))) with
    | false => rfl
    | true =>
      exfalso
      by_cases hjp : j < pre.length
      · have hdrop : (pre ++ hyph).drop j = pre.drop j ++ hyph :=
          List.drop_append_of_le_length (Nat.le_of_lt hjp)
        rw [hdrop, List.append_assoc] at hres
        have hune : pre.drop j ≠ [] := by
          intro hc
          have := congrArg List.length hc
          simp at this
          omega
        by_cases hlen : 7 ≤ (pre.drop j).length
        · have h7 : opacityLit.length ≤ (pre.drop j).length := by
            have : opacityLit.length = 7 := by decide
            omega
          have hlong := prefixOf_long _ _ _ hres h7
          have := hasMatch_of_drop_prefixOf _ pre j hlong
          rw [hpre] at this
          cases this
        · have hsh2 : hyph ++ (opacityLit ++ (opTail ++ post)) =
              (hyph ++ (opacityLit ++ opTail)) ++ post := by simp
          rw [hsh2] at hres
          rw [hspan (pre.drop j) post hune (by omega)] at hres
          cases hres
      · have hj2 : pre.length + (j - pre.length) = j := by omega
        have hdrop : (pre ++ hyph).drop j = hyph.drop (j - pre.length) := by
          have h := @List.drop_append _ pre hyph (j - pre.length)
          rw [hj2] at h
          exact h
        have hnlt : j - pre.length < hyph.length := by
          simp [List.length_append] at hj
          omega
        rw [hdrop] at hres
        have hattr : (hyph ++ (opacityLit ++ opTail)).drop (j - pre.length) ++ post =
            hyph.drop (j - pre.length) ++ (opacityLit ++ (opTail ++ post)) := by
          rw [List.drop_append_of_le_length (Nat.le_of_lt hnlt)]
          simp
        rw [← hattr] at hres
        rw [hocc (j - pre.length) post ?hl1 ?hl2] at hres
        · cases hres
        case hl1 =>
          simp [List.length_append]
          omega
        case hl2 => omega
  have hm2 : opacityScanner.parse (opacityLit ++ (opTail ++ post)) = some ([], post) := by
    dsimp only [opacityScanner]
    rw [if_pos (prefixOf_self_append opacityLit _)]
    have hdrop7 : (opacityLit ++ (opTail ++ post)).drop 7 = opTail ++ post := by
      rw [show (7 : Nat) = opacityLit.length from by decide]
      exact List.drop_left _ _
    rw [hdrop7, htail post]
    rfl
  rw [genScan_some _ opScan_consumes _ _ _ hm2]
  rw [genScan_id _ post ?hpost2]
  case hpost2 =>
    intro j
    cases hp : opacityScanner.parse (post.drop j) with
    | none => rfl
    | some pr =>
      exfalso
      have := hasMatch_drop _ _ _ (opScan_hasMatch _ pr hp)
      rw [hpost] at this
      cases this
  simp

set_option maxRecDepth 8192 in
/-- C9: the sanitizer's second opacity regex has no word boundary, so on a
hyphenated attribute such as `fill-opacity="0.5"` or `stroke-opacity="0.7"`
(in context with no other `opacity` occurrence and none preceded by
whitespace) the opacity-removal stage deletes only the `opacity="v"`
suffix, leaving the dangling token `fill-` or `stroke-`; end to end,
`optimizeSvgForEpub` turns `fill-opacity="0.5" stroke-opacity="0.7"` into
the dangling `fill- stroke-`. -/
theorem danglingOpacityPrefix (pre post : List Char)
    (hpre : hasMatch opacityLit pre = false)
    (hpost : hasMatch opacityLit post = false)
    (hwsF : ∀ c ∈ wsChars, hasMatch (c :: opacityLit) (pre ++ (fillAttr ++ post)) = false)
    (hwsS : ∀ c ∈ wsChars, hasMatch (c :: opacityLit) (pre ++ (strokeAttr ++ post)) = false) :
    opacityStep (pre ++ (fillAttr ++ post)) = pre ++ (['f', 'i', 'l', 'l', '-'] ++ post) ∧
    opacityStep (pre ++ (strokeAttr ++ post)) =
      pre ++ (['s', 't', 'r', 'o', 'k', 'e', '-'] ++ post) ∧
    optimizeSvgForEpub c9Input =
      ("<svg xmlns=\"http://www.w3.org/2000/svg\" width=\"10\" height=\"10\">" ++
        "<rect fill- stroke-/></svg>").data := by
  refine ⟨?_, ?_, ?_⟩
  · have hF : fillAttr =
        ['f', 'i', 'l', 'l', '-'] ++
          (opacityLit ++ ('=' :: '"' :: (['0', '.', '5'] ++ ['"']))) := rfl
    rw [hF] at hwsF ⊢
    refine opacityStep_dangles pre ['f', 'i', 'l', 'l', '-']
      ('=' :: '"' :: (['0', '.', '5'] ++ ['"'])) post ?_ ?_ ?_ hpre hpost hwsF
    · intro X
      exact parseOpacityAssign_concrete ['0', '.', '5'] X (by decide)
    · intro n X hn hne
      rw [← hF] at hn ⊢
      have h18 : n < 18 := by
        have hl : fillAttr.length = 18 := by decide
        omega
      exact fillAttr_occ n X h18 (by simpa using hne)
    · intro u X hu hlen
      rw [← hF]
      exact fillAttr_span u X hu hlen
  · have hS : strokeAttr =
        ['s', 't', 'r', 'o', 'k', 'e', '-'] ++
          (opacityLit ++ ('=' :: '"' :: (['0', '.', '7'] ++ ['"']))) := rfl
    rw [hS] at hwsS ⊢
    refine opacityStep_dangles pre ['s', 't', 'r', 'o', 'k', 'e', '-']
      ('=' :: '"' :: (['0', '.', '7'] ++ ['"'])) post ?_ ?_ ?_ hpre hpost hwsS
    · intro X
      exact parseOpacityAssign_concrete ['0', '.', '7'] X (by decide)
    · intro n X hn hne
      rw [← hS] at hn ⊢
      have h20 : n < 20 := by
        have hl : strokeAttr.length = 20 := by decide
        omega
      exact strokeAttr_occ n X h20 (by simpa using hne)
    · intro u X hu hlen
      rw [← hS]
      exact strokeAttr_span u X hu hlen
  · decide

/-- C8: the Path Rewriter is purely textual: every chapter text splits
into pattern-free segments joined by `../illustrations/`, and both the
EPUB and the PDF rewrites are exactly those same segments joined by the
respective replacement — all content outside matched occurrences is
carried over unchanged and in order. -/
theorem pathRewriter_frame (s : List Char) : ∃ segs : List (List Char),
    segs ≠ [] ∧ (∀ g ∈ segs, hasMatch upat g = false) ∧ joinWith upat segs = s ∧
    replaceAll upat epubRep s = joinWith epubRep segs ∧
    replaceAll upat pdfRep s = joinWith pdfRep segs := by
  obtain ⟨segs, hne, hfree, hjoin, hall⟩ := replaceAll_segments s
  exact ⟨segs, hne, hfree, hjoin, hall epubRep, hall pdfRep⟩

/-- C4 counterexample: on `../../illustrations/` (one occurrence of the
pattern) the EPUB rewrite still leaves one occurrence of
`../illustrations/` in its output, and on `.../illustrations/` the PDF
rewrite does the same: the replacement can splice with adjacent text into
a fresh occurrence of the pattern. -/
theorem pathRewriter_count_cex :
    countOcc upat (['.', '.', '/'] ++ upat) = 1 ∧
    countOcc upat (replaceAll upat epubRep (['.', '.', '/'] ++ upat)) = 1 ∧
    countOcc upat (['.'] ++ upat) = 1 ∧
    countOcc upat (replaceAll upat pdfRep (['.'] ++ upat)) = 1 := by decide

/-- C4 amended: for every chapter text containing the pattern
`../illustrations/`, provided no occurrence is directly preceded by `../`
(EPUB) or `.` (PDF) and the input holds no stray copy of the respective
replacement outside pattern occurrences (the replacement's occurrence
count equals the pattern's), the rewrite output has zero occurrences of
the pattern and exactly as many occurrences of the replacement as the
input had of the pattern. -/
theorem pathRewriter_count_amended (s : List Char)
    (hpos : 0 < countOcc upat s)
    (hbadE : hasMatch epubBad s = false)
    (hbadP : hasMatch pdfBad s = false)
    (hrepE : countOcc epubRep s = countOcc upat s)
    (hrepP : countOcc pdfRep s = countOcc upat s) :
    countOcc upat (replaceAll upat epubRep s) = 0 ∧
    countOcc epubRep (replaceAll upat epubRep s) = countOcc upat s ∧
    countOcc upat (replaceAll upat pdfRep s) = 0 ∧
    countOcc pdfRep (replaceAll upat pdfRep s) = countOcc upat s := by
  obtain ⟨segs, hne, hfree, hjoin, hall⟩ := replaceAll_segments s
  cases segs with
  | nil => exact absurd rfl hne
  | cons g rest =>
    have hin : countOcc upat s = rest.length := by
      rw [← hjoin]
      exact countOcc_upat_in g rest hfree
    have hbadE' : hasMatch (['.', '.', '/'] ++ upat) (joinWith upat (g :: rest)) = false := by
      rw [hjoin]
      exact hbadE
    have hzeroE : countOcc upat (joinWith epubRep (g :: rest)) = 0 :=
      countOcc_upat_out epubRep ['.', '.', '/'] cnt_upat_epubRep span_upat_epubRep
        (g :: rest) hfree hbadE'
    have hsumE : countOcc epubRep s = rest.length + sumCnt epubRep (g :: rest) := by
      rw [← hjoin]
      exact countOcc_rep_in epubRep cnt_epubRep_upat
        (fun u Y hu hlt h => span_epubRep_upat u Y hu (by
          have h14 : epubRep.length = 14 := by decide
          omega) h) g rest
    have hszE : (List.map (countOcc epubRep) (g :: rest)).sum = 0 := by
      have h0 : sumCnt epubRep (g :: rest) = 0 := by
        rw [hrepE, hin] at hsumE
        omega
      exact h0
    have hzE : ∀ g' ∈ g :: rest, countOcc epubRep g' = 0 := by
      intro g' hg'
      exact List.sum_eq_zero_iff.mp hszE _ (List.mem_map_of_mem _ hg')
    have houtcntE : countOcc epubRep (joinWith epubRep (g :: rest)) = rest.length :=
      countOcc_rep_out epubRep cnt_epubRep_epubRep
        (fun u X hu hlt h => span_epubRep_epubRep u X hu (by
          have h14 : epubRep.length = 14 := by decide
          omega) h) g rest hzE
    have hbadP' : hasMatch (['.'] ++ upat) (joinWith upat (g :: rest)) = false := by
      rw [hjoin]
      exact hbadP
    have hzeroP : countOcc upat (joinWith pdfRep (g :: rest)) = 0 :=
      countOcc_upat_out pdfRep ['.'] cnt_upat_pdfRep span_upat_pdfRep
        (g :: rest) hfree hbadP'
    have hsumP : countOcc pdfRep s = rest.length + sumCnt pdfRep (g :: rest) := by
      rw [← hjoin]
      exact countOcc_rep_in pdfRep cnt_pdfRep_upat
        (fun u Y hu hlt h => span_pdfRep_upat u Y hu (by
          have h16 : pdfRep.length = 16 := by decide
          omega) h) g rest
    have hszP : (List.map (countOcc pdfRep) (g :: rest)).sum = 0 := by
      have h0 : sumCnt pdfRep (g :: rest) = 0 := by
        rw [hrepP, hin] at hsumP
        omega
      exact h0
    have hzP : ∀ g' ∈ g :: rest, countOcc pdfRep g' = 0 := by
      intro g' hg'
      exact List.sum_eq_zero_iff.mp hszP _ (List.mem_map_of_mem _ hg')
    have houtcntP : countOcc pdfRep (joinWith pdfRep (g :: rest)) = rest.length :=
      countOcc_rep_out pdfRep cnt_pdfRep_pdfRep
        (fun u X hu hlt h => span_pdfRep_pdfRep u X hu (by
          have h16 : pdfRep.length = 16 := by decide
          omega) h) g rest hzP
    refine ⟨?_, ?_, ?_, ?_⟩
    · rw [hall epubRep]
      exact hzeroE
    · rw [hall epubRep, hin]
      exact houtcntE
    · rw [hall pdfRep]
      exact hzeroP
    · rw [hall pdfRep, hin]
      exact houtcntP

/-- Witness: the amended rewrite-count theorem at the concrete chapter
text `a ../illustrations/x`. -/
theorem pathRewriter_count_amended_witness :
    countOcc upat (replaceAll upat epubRep (['a', ' '] ++ (upat ++ ['x']))) = 0 ∧
    countOcc epubRep (replaceAll upat epubRep (['a', ' '] ++ (upat ++ ['x']))) =
      countOcc upat (['a', ' '] ++ (upat ++ ['x'])) ∧
    countOcc upat (replaceAll upat pdfRep (['a', ' '] ++ (upat ++ ['x']))) = 0 ∧
    countOcc pdfRep (replaceAll upat pdfRep (['a', ' '] ++ (upat ++ ['x']))) =
      countOcc upat (['a', ' '] ++ (upat ++ ['x'])) :=
  pathRewriter_count_amended (['a', ' '] ++ (upat ++ ['x']))
    (by decide) (by decide) (by decide) (by decide) (by decide)

/-- C6 counterexample: the input `<svg>opacity</svg>` has an `<svg>` root,
yet the sanitized output still contains the token `opacity` — a bare token
that is neither an attribute nor a style declaration survives every
removal regex. -/
theorem opacityRemoval_cex :
    hasMatch opacityLit (optimizeSvgForEpub c6CexInput) = true := by decide

set_option maxRecDepth 8192 in
/-- C6 amended: the opacity-removal stage deletes a well-formed,
space-led opacity attribute `opacity="v"` whenever the text before it
contains no whitespace character and the surrounding context carries no
other `opacity` occurrence, and the resulting output is `opacity`-free;
and on the spec's end-to-end scenario 2 (an opacity attribute plus an
`opacity: 0.5;` declaration inside a style block) the full sanitizer
output contains no `opacity` token. Bare `opacity` tokens outside that
shape can survive. -/
theorem opacityRemoval_amended (pre v post : List Char)
    (hpws : ∀ c ∈ pre, isJsWs c = false)
    (hno : hasMatch opacityLit (pre ++ post) = false)
    (hv : ∀ c ∈ v, (c == '"') = false) :
    opacityStep (pre ++ ((' ' :: opAttr v) ++ post)) = pre ++ post ∧
    hasMatch opacityLit (opacityStep (pre ++ ((' ' :: opAttr v) ++ post))) = false ∧
    hasMatch opacityLit (optimizeSvgForEpub scenario2) = false := by
  have h1 := opacityStep_removes_attr pre v post hpws hno hv
  refine ⟨h1, ?_, by decide⟩
  rw [h1]
  exact hno

/-- Witness: the amended opacity-removal theorem at the concrete context
`<rect` … `/>` with value `0.5`. -/
theorem opacityRemoval_amended_witness :
    opacityStep (['<', 'r', 'e', 'c', 't'] ++ ((' ' :: opAttr ['0', '.', '5']) ++ ['/', '>'])) =
      ['<', 'r', 'e', 'c', 't'] ++ ['/', '>'] ∧
    hasMatch opacityLit
      (opacityStep
        (['<', 'r', 'e', 'c', 't'] ++ ((' ' :: opAttr ['0', '.', '5']) ++ ['/', '>']))) = false ∧
    hasMatch opacityLit (optimizeSvgForEpub scenario2) = false :=
  opacityRemoval_amended ['<', 'r', 'e', 'c', 't'] ['0', '.', '5'] ['/', '>']
    (by decide) (by decide) (by decide)

/-- Witness: the dangling-prefix theorem at the concrete context
`<r ` … `/>`. -/
theorem danglingOpacityPrefix_witness :
    opacityStep (['<', 'r', ' '] ++ (fillAttr ++ ['/', '>'])) =
      ['<', 'r', ' '] ++ (['f', 'i', 'l', 'l', '-'] ++ ['/', '>']) ∧
    opacityStep (['<', 'r', ' '] ++ (strokeAttr ++ ['/', '>'])) =
      ['<', 'r', ' '] ++ (['s', 't', 'r', 'o', 'k', 'e', '-'] ++ ['/', '>']) ∧
    optimizeSvgForEpub c9Input =
      ("<svg xmlns=\"http://www.w3.org/2000/svg\" width=\"10\" height=\"10\">" ++
        "<rect fill- stroke-/></svg>").data :=
  danglingOpacityPrefix ['<', 'r', ' '] ['/', '>']
    (by decide) (by decide) (by decide) (by decide)

end MarkEdit
